import Mathlib

set_option maxRecDepth 100000

/-!
Verification of the `sudoku.rs` solving engine.

A shallow embedding of `src/main.rs` (a 9×9 Sudoku solver: single-pass
constraint propagation followed by iterative backtracking search) and proofs
about it.

Modelling conventions:
* Rust `i8` digits become `Int` (the program only stores and compares digits,
  no arithmetic overflow is possible).
* Rust `HashSet<i8>` becomes a duplicate-free `List Int`.  The program observes
  the set's iteration order in two places (extracting the single candidate of a
  singleton set, which is order-independent, and indexing candidates with
  `iter().nth(idx)` during backtracking).  `HashSet` iteration order is
  unspecified, so the point where a freshly computed candidate set is stored on
  a cell is parametrised by an `arrange` function that fixes an enumeration
  order of that set; `arrange = id` corresponds to ascending digit order
  (candidates are generated by the `1..10` loop in ascending order, and
  `HashSet::remove` is modelled by `List.filter`, which preserves relative
  order).
* The fallible `while` loop of `guess_solutions` is embedded with an explicit
  fuel parameter; `none` marks fuel exhaustion, and a theorem below shows the
  fixed fuel `12 ^ 82` is never exhausted, so the embedding is total on the
  loop's actual behaviour.
* `assert!` statements in the source are modelled as separate propositions
  about the asserted conditions (proved to hold where the claims need them).
-/

/-- One cell of the board: `main.rs` lines 18–24.  Either solved (`solution`
set) or unsolved (`candidates` populated by propagation; `candidate` and
`candidate_idx` are the backtracking search's tentative pick and resumable
cursor). -/
structure Cell where
  solution : Option Int
  candidates : List Int
  candidate : Option Int
  candidate_idx : Option Nat
deriving DecidableEq, Repr

/-- `Cell::solved` (main.rs lines 27–34). -/
def Cell.solved (n : Int) : Cell :=
  { solution := some n, candidates := [], candidate := none, candidate_idx := none }

/-- `Cell::unsolved` (main.rs lines 36–43). -/
def Cell.unsolved : Cell :=
  { solution := none, candidates := [], candidate := none, candidate_idx := none }

instance : Inhabited Cell := ⟨Cell.unsolved⟩

/-- `pub type Board = [[Cell; 9]; 9]` — a 9×9 board, rows of cells.  The fixed
size of the Rust array type is captured by the `Dims9` predicate below. -/
abbrev Board := List (List Cell)

/-- Read the cell at `row:col` (defaulting outside the 9×9 range, which the
source never accesses). -/
def getCell (b : Board) (r c : Nat) : Cell :=
  (b.getD r []).getD c Cell.unsolved

/-- Apply `f` to the element at index `i`, leaving the list unchanged when the
index is out of range (models in-place mutation of one array slot). -/
def updAt : List α → Nat → (α → α) → List α
  | [], _, _ => []
  | x :: xs, 0, f => f x :: xs
  | x :: xs, n + 1, f => x :: updAt xs n f

/-- In-place mutation of the cell at `row:col`. -/
def modifyCell (b : Board) (r c : Nat) (f : Cell → Cell) : Board :=
  updAt b r (fun row => updAt row c f)

/-- The fixed 9×9 shape of the Rust `Board` array type. -/
def Dims9 (b : Board) : Prop :=
  b.length = 9 ∧ ∀ row ∈ b, row.length = 9

/-- `block_index` (main.rs lines 305–309): the block owning cell `row:col`.
Its `assert!(block_idx < 9)` always holds (proved below). -/
def block_index (r c : Nat) : Nat :=
  r / 3 * 3 + c / 3

/-- A `Block`'s `solutions: HashSet<i8>` as a duplicate-free list; the nine
blocks as a list of such sets. -/
abbrev Blocks := List (List Int)

/-- `HashSet::insert`: add `x` if absent. -/
def insertSol (l : List Int) (x : Int) : List Int :=
  if x ∈ l then l else l ++ [x]

/-- `make_blocks` (main.rs lines 276–301): scan every cell in row-major order
and insert each solved digit into the block owning that cell.  (The `unsafe`
array initialisation in the source just builds nine empty sets.) -/
def make_blocks (b : Board) : Blocks :=
  (List.range 9).foldl (fun blocks r =>
    (List.range 9).foldl (fun blocks c =>
      match (getCell b r c).solution with
      | some d => updAt blocks (block_index r c) (fun s => insertSol s d)
      | none => blocks) blocks) (List.replicate 9 [])

/-- The `Sudoku` solver state (main.rs lines 48–51). -/
structure Sudoku where
  board : Board
  blocks : Blocks

/-- `Sudoku::new` (main.rs lines 54–60). -/
def Sudoku.new (b : Board) : Sudoku :=
  { board := b, blocks := make_blocks b }

/-- `find_cell_candidates` (main.rs lines 93–125): digits 1–9 not already
solved in the cell's block, column, or row.  The `1..10` loop inserts in
ascending order. -/
def find_cell_candidates (s : Sudoku) (row col : Nat) : List Int :=
  ((List.range 9).map (fun i => Int.ofNat i + 1)).filter (fun cand =>
    !((s.blocks.getD (block_index row col) []).contains cand) &&
    !((List.range 9).any (fun o => (getCell s.board o col).solution == some cand)) &&
    !((List.range 9).any (fun o => (getCell s.board row o).solution == some cand)))

/-- The assertion `assert!(block.solutions.len() < 9)` at the top of
`find_cell_candidates` (main.rs line 96). -/
def find_cell_candidates_assertion (s : Sudoku) (row col : Nat) : Prop :=
  (s.blocks.getD (block_index row col) []).length < 9

/-- `HashSet::remove(&solution)` on a cell's candidate set. -/
def clearCand (d : Int) (cell : Cell) : Cell :=
  { cell with candidates := cell.candidates.filter (fun x => x != d) }

/-- `found_solution` (main.rs lines 131–156): commit `sol` at `row:col`, clear
that cell's candidates, register the digit in its block, then remove it from
the candidate sets of the whole column, whole row, and 3×3 block. -/
def found_solution (s : Sudoku) (row col : Nat) (sol : Int) : Sudoku :=
  let b0 := modifyCell s.board row col
    (fun cell => { cell with solution := some sol, candidates := [] })
  let blocks := updAt s.blocks (block_index row col) (fun l => insertSol l sol)
  let b1 := (List.range 9).foldl (fun b o => modifyCell b o col (clearCand sol)) b0
  let b2 := (List.range 9).foldl (fun b o => modifyCell b row o (clearCand sol)) b1
  let b3 := (List.range 3).foldl (fun b i =>
    (List.range 3).foldl (fun b j =>
      modifyCell b (row / 3 * 3 + i) (col / 3 * 3 + j) (clearCand sol)) b) b2
  { board := b3, blocks := blocks }

/-- `find_candidates` (main.rs lines 71–89): single row-major pass; skip solved
cells; commit singleton candidate sets immediately via `found_solution`; store
non-empty multi-candidate sets on the cell (in the enumeration order `arrange`
chosen by the `HashSet`). -/
def find_candidates (arrange : List Int → List Int) (s : Sudoku) : Sudoku :=
  (List.range 9).foldl (fun s row =>
    (List.range 9).foldl (fun s col =>
      if (getCell s.board row col).solution.isSome then s
      else
        let cands := find_cell_candidates s row col
        if cands.length == 1 then found_solution s row col (cands.headD 0)
        else if cands.isEmpty then s
        else
          let b1 := modifyCell s.board row col
            (fun cell => { cell with candidates := arrange cands })
          { s with board := b1 }) s) s

/-- Row-major list of all 81 coordinates. -/
def allCells : List (Nat × Nat) :=
  (List.range 9).flatMap (fun r => (List.range 9).map (fun c => (r, c)))

/-- `unsolved_cells` (main.rs lines 207–217): row-major coordinates of cells
without a solution. -/
def unsolved_cells (s : Sudoku) : List (Nat × Nat) :=
  allCells.filter (fun p => (getCell s.board p.1 p.2).solution.isNone)

/-- `can_choose_candidate` (main.rs lines 238–263): the tentative `candidate`
of every unsolved cell at a *smaller column in the same row* or a *smaller row
in the same column* must differ from `cand`.  (No block scan is performed.) -/
def can_choose_candidate (b : Board) (row col : Nat) (cand : Int) : Bool :=
  (List.range col).all (fun oc =>
    let other := getCell b row oc
    !(other.solution.isNone && other.candidate == some cand)) &&
  (List.range row).all (fun o =>
    let other := getCell b o col
    !(other.solution.isNone && other.candidate == some cand))

/-- The inner `while cand_idx < candidates.len()` loop of `guess_solutions`
(main.rs lines 169–185): try candidates from index `cand_idx` on, storing each
tried index + 1 into `candidate_idx` before testing, until one passes
`can_choose_candidate` (result `true`) or the list is exhausted (`false`).
`cands` is the cell's candidate list, which the loop body never modifies, and
`steps` is a structural-recursion budget (any `steps > cands.length - cand_idx`
gives the loop's real behaviour). -/
def innerLoop (cands : List Int) (row col : Nat) : Board → Nat → Nat → Board × Bool
  | b, _, 0 => (b, false)
  | b, cand_idx, steps + 1 =>
    if cand_idx < cands.length then
      let cand := cands.getD cand_idx 0
      let b1 := modifyCell b row col (fun cell =>
        { cell with candidate := some cand, candidate_idx := some (cand_idx + 1) })
      if can_choose_candidate b1 row col cand then (b1, true)
      else innerLoop cands row col b1 (cand_idx + 1) steps
    else (b, false)

/-- The outer `'cell_iteration` loop of `guess_solutions` (main.rs lines
160–198), with explicit fuel.  `some (true, b)` — the index walked past the
last unsolved cell (success, board `b`); `some (false, b)` — exhaustion backed
up past the first unsolved cell (no solution, board `b`); `none` — out of
fuel. -/
def guessLoop (cells : List (Nat × Nat)) : Nat → Board → Nat → Option (Bool × Board)
  | 0, _, _ => none
  | fuel + 1, b, cell_idx =>
    if cell_idx < cells.length then
      let rc := cells.getD cell_idx (0, 0)
      let cands := (getCell b rc.1 rc.2).candidates
      let start := ((getCell b rc.1 rc.2).candidate_idx).getD 0
      let res := innerLoop cands rc.1 rc.2 b start (cands.length + 1)
      if res.2 then guessLoop cells fuel res.1 (cell_idx + 1)
      else
        let b2 := modifyCell res.1 rc.1 rc.2 (fun cell =>
          { cell with candidate := none, candidate_idx := none })
        if cell_idx == 0 then some (false, b2)
        else guessLoop cells fuel b2 (cell_idx - 1)
    else some (true, b)

/-- The per-cell body of `use_final_candidates`: an unsolved cell's chosen
candidate becomes its solution.  (The source's `println!` warning for a cell
with neither solution nor candidate has no state effect and is dropped.) -/
def finalizeCell (cell : Cell) : Cell :=
  if cell.solution.isNone then
    match cell.candidate with
    | some cand => { cell with solution := some cand }
    | none => cell
  else cell

/-- `use_final_candidates` (main.rs lines 220–233). -/
def use_final_candidates (b : Board) : Board :=
  (List.range 9).foldl (fun b row =>
    (List.range 9).foldl (fun b col =>
      modifyCell b row col finalizeCell) b) b

/-- Fuel for the backtracking loop.  The termination theorem below shows at
most `12 ^ 81` outer iterations can ever happen, so this is never exhausted. -/
def SOLVE_FUEL : Nat := 12 ^ 82

/-- `guess_solutions` (main.rs lines 160–203).  The first component of the
result is the Rust return value (`Option<Board>`); the second is `self.board`
as left behind by the call (the source mutates it in place). -/
def guess_solutions (s : Sudoku) : Option (Option Board × Board) :=
  match guessLoop (unsolved_cells s) SOLVE_FUEL s.board 0 with
  | none => none
  | some (false, b) => some (none, b)
  | some (true, b) =>
      let b2 := use_final_candidates b
      some (some b2, b2)

/-- `Sudoku::solve` (main.rs lines 64–67) on a fresh `Sudoku::new(board)`, with
the `HashSet` enumeration order `arrange`; result as in `guess_solutions`. -/
def solveWith (arrange : List Int → List Int) (b : Board) :
    Option (Option Board × Board) :=
  guess_solutions (find_candidates arrange (Sudoku.new b))

/-- The Rust return value of `solve`, under enumeration order `arrange`. -/
def solveR (arrange : List Int → List Int) (b : Board) : Option Board :=
  match solveWith arrange b with
  | some (r, _) => r
  | none => none

/-- `solve` with the ascending candidate enumeration order. -/
def solve (b : Board) : Option Board :=
  solveR (fun l => l) b

/-- `fn solved` (main.rs lines 376–378). -/
def sv (n : Int) : Cell := Cell.solved n

/-- `fn unsolved` (main.rs lines 380–382). -/
def uv : Cell := Cell.unsolved

/-- `default_board` (main.rs lines 430–480): the classic example puzzle. -/
def default_board : Board := [
  [uv, uv, sv 5, uv, uv, sv 8, uv, uv, uv],
  [uv, sv 2, uv, uv, uv, uv, sv 5, uv, uv],
  [sv 7, sv 9, uv, sv 3, sv 4, sv 5, sv 6, sv 2, uv],
  [uv, uv, uv, sv 6, uv, sv 4, sv 7, sv 1, uv],
  [uv, sv 4, sv 9, sv 5, uv, sv 7, sv 8, sv 3, uv],
  [uv, sv 1, sv 7, sv 8, uv, sv 2, uv, uv, uv],
  [uv, sv 5, sv 4, sv 7, sv 8, sv 3, uv, sv 9, sv 6],
  [uv, uv, sv 6, uv, uv, uv, uv, sv 5, uv],
  [uv, uv, uv, sv 1, uv, uv, sv 4, uv, uv]
]

/-- A valid partial puzzle (obtained by blanking cells of a complete valid
Sudoku solution, so its pre-filled cells are pairwise distinct in every row,
column and block) on which the solver's output contains the digit 2 in two
cells of block 0 that share neither a row nor a column. -/
def gBad : Board := [
  [uv, uv, uv, sv 9, sv 3, uv, sv 6, sv 4, uv],
  [sv 4, uv, uv, sv 7, uv, sv 8, sv 3, sv 9, sv 1],
  [sv 3, uv, uv, uv, sv 6, sv 4, uv, sv 2, sv 8],
  [sv 5, sv 8, sv 1, uv, sv 9, sv 6, sv 7, uv, sv 4],
  [sv 2, uv, sv 3, sv 5, sv 1, sv 7, sv 8, sv 6, sv 9],
  [uv, sv 7, uv, sv 8, sv 4, sv 3, sv 2, sv 1, uv],
  [uv, uv, uv, sv 3, uv, sv 9, uv, sv 7, sv 6],
  [uv, sv 3, sv 6, sv 4, sv 8, sv 1, sv 9, sv 5, sv 2],
  [sv 9, uv, sv 4, uv, sv 7, uv, sv 1, sv 8, sv 3]
]

/-- A valid partial puzzle with no completion: cell `0:8` sees all nine digits
among its solved peers, so its candidate set is empty and backtracking fails
immediately. -/
def gUnsat : Board := [
  [sv 1, sv 2, sv 3, sv 4, sv 5, sv 6, sv 7, sv 8, uv],
  [uv, uv, uv, uv, uv, uv, uv, uv, sv 9],
  [uv, uv, uv, uv, uv, uv, uv, uv, uv],
  [uv, uv, uv, uv, uv, uv, uv, uv, uv],
  [uv, uv, uv, uv, uv, uv, uv, uv, uv],
  [uv, uv, uv, uv, uv, uv, uv, uv, uv],
  [uv, uv, uv, uv, uv, uv, uv, uv, uv],
  [uv, uv, uv, uv, uv, uv, uv, uv, uv],
  [uv, uv, uv, uv, uv, uv, uv, uv, uv]
]

/-- A fully pre-filled board every cell of which is the digit 1 — wildly
violating the uniqueness constraints, yet fully solved. -/
def allOnes : Board :=
  List.replicate 9 (List.replicate 9 (sv 1))

/-! ## Well-formedness of input boards

The engine's contract (spec §6) takes a fully-formed 9×9 grid whose cells come
from the two `Cell` constructors with digits 1–9. -/

/-- A cell as produced by the board constructors: `Cell::unsolved()`, or
`Cell::solved(d)` with a digit `d ∈ 1..9`. -/
def GoodCell (cell : Cell) : Prop :=
  cell = Cell.unsolved ∨
    (1 ≤ cell.solution.getD 0 ∧ cell.solution.getD 0 ≤ 9 ∧
      cell = Cell.solved (cell.solution.getD 0))

instance : DecidablePred GoodCell := fun _ => by
  unfold GoodCell; infer_instance

/-- A fully-formed input board. -/
def WfBoard (b : Board) : Prop :=
  Dims9 b ∧ ∀ r, r < 9 → ∀ c, c < 9 → GoodCell (getCell b r c)

instance : DecidablePred Dims9 := fun _ => by
  unfold Dims9; infer_instance

instance : DecidablePred WfBoard := fun _ => by
  unfold WfBoard; infer_instance

/-! ## Boolean observers used to state concrete-run facts -/

/-- Some two solved cells in the same block, sharing neither a row nor a
column, hold the same digit. -/
def sameBlockDupB (b : Board) : Bool :=
  allCells.any (fun p => allCells.any (fun q =>
    (p.1 != q.1) && (p.2 != q.2) &&
    (block_index p.1 p.2 == block_index q.1 q.2) &&
    (getCell b p.1 p.2).solution.isSome &&
    ((getCell b p.1 p.2).solution == (getCell b q.1 q.2).solution)))

/-- `sameBlockDupB` on the grid inside a `solve` result (`false` on `none`). -/
def someWithBlockDup : Option Board → Bool
  | some g => sameBlockDupB g
  | none => false

/-- The pre-filled (solved) cells are pairwise distinct within every row,
column, and block: the input-validity precondition of spec §6. -/
def prefillOkB (b : Board) : Bool :=
  allCells.all (fun p => allCells.all (fun q =>
    !((p != q) &&
      (p.1 == q.1 || p.2 == q.2 || block_index p.1 p.2 == block_index q.1 q.2) &&
      (getCell b p.1 p.2).solution.isSome &&
      ((getCell b p.1 p.2).solution == (getCell b q.1 q.2).solution))))

/-- Two distinct pre-filled cells in the same row hold the same digit. -/
def rowDupPrefillB (b : Board) : Bool :=
  allCells.any (fun p => allCells.any (fun q =>
    (p.1 == q.1) && (p.2 != q.2) &&
    (getCell b p.1 p.2).solution.isSome &&
    ((getCell b p.1 p.2).solution == (getCell b q.1 q.2).solution)))

/-! ## Basic lemmas about `updAt`, `getCell`, `modifyCell` -/

theorem updAt_length (l : List α) (i : Nat) (f : α → α) :
    (updAt l i f).length = l.length := by
  induction l generalizing i with
  | nil => rfl
  | cons x xs ih => cases i with
    | zero => rfl
    | succ n => simpa [updAt] using ih n

theorem updAt_of_le (l : List α) (i : Nat) (f : α → α) (h : l.length ≤ i) :
    updAt l i f = l := by
  induction l generalizing i with
  | nil => rfl
  | cons x xs ih => cases i with
    | zero => simp at h
    | succ n => exact congrArg (x :: ·) (ih n (by simpa using h))

theorem getD_cons_zero' (x : α) (xs : List α) (d : α) : (x :: xs).getD 0 d = x := rfl

theorem getD_cons_succ' (x : α) (xs : List α) (n : Nat) (d : α) :
    (x :: xs).getD (n + 1) d = xs.getD n d := rfl

theorem getD_updAt_ne (l : List α) {i j : Nat} (h : i ≠ j) (f : α → α) (d : α) :
    (updAt l i f).getD j d = l.getD j d := by
  induction l generalizing i j with
  | nil => rfl
  | cons x xs ih =>
    cases i with
    | zero => cases j with
      | zero => exact absurd rfl h
      | succ m => rfl
    | succ n => cases j with
      | zero => rfl
      | succ m =>
        have hnm : n ≠ m := fun hh => h (by rw [hh])
        rw [updAt, getD_cons_succ', getD_cons_succ']
        exact ih hnm

theorem getD_updAt_self (l : List α) {i : Nat} (h : i < l.length) (f : α → α) (d : α) :
    (updAt l i f).getD i d = f (l.getD i d) := by
  induction l generalizing i with
  | nil => simp at h
  | cons x xs ih =>
    cases i with
    | zero => rfl
    | succ n =>
      rw [updAt, getD_cons_succ', getD_cons_succ']
      exact ih (by simpa using h)

theorem updAt_eq_self (l : List α) (i : Nat) (f : α → α) (d : α)
    (h : f (l.getD i d) = l.getD i d) :
    updAt l i f = l := by
  induction l generalizing i with
  | nil => rfl
  | cons x xs ih =>
    cases i with
    | zero => rw [updAt]
              exact congrArg (· :: xs) (by simpa [getD_cons_zero'] using h)
    | succ n => exact congrArg (x :: ·) (ih n (by simpa [getD_cons_succ'] using h))

theorem mem_updAt {l : List α} {i : Nat} {g : α → α} {y : α} (hy : y ∈ updAt l i g) :
    y ∈ l ∨ ∃ x, x ∈ l ∧ y = g x := by
  induction l generalizing i with
  | nil => simp [updAt] at hy
  | cons x xs ih =>
    cases i with
    | zero =>
      rcases List.mem_cons.mp hy with h | h
      · exact Or.inr ⟨x, by simp, h⟩
      · exact Or.inl (List.mem_cons_of_mem _ h)
    | succ n =>
      rcases List.mem_cons.mp hy with h | h
      · exact Or.inl (h ▸ List.mem_cons_self x xs)
      · rcases ih h with h2 | ⟨z, hz, hyz⟩
        · exact Or.inl (List.mem_cons_of_mem _ h2)
        · exact Or.inr ⟨z, List.mem_cons_of_mem _ hz, hyz⟩

theorem getCell_modifyCell_ne (b : Board) {r c r' c' : Nat}
    (h : (r, c) ≠ (r', c')) (f : Cell → Cell) :
    getCell (modifyCell b r c f) r' c' = getCell b r' c' := by
  unfold getCell modifyCell
  by_cases hr : r = r'
  · subst hr
    have hc : c ≠ c' := fun hc => h (by rw [hc])
    by_cases hrange : r < b.length
    · rw [getD_updAt_self b hrange, getD_updAt_ne _ hc]
    · rw [updAt_of_le b r _ (by omega)]
  · rw [getD_updAt_ne b hr]

theorem getCell_modifyCell_self_or (b : Board) (r c : Nat) (f : Cell → Cell) :
    getCell (modifyCell b r c f) r c = f (getCell b r c) ∨
    getCell (modifyCell b r c f) r c = getCell b r c := by
  unfold getCell modifyCell
  by_cases hr : r < b.length
  · rw [getD_updAt_self b hr]
    by_cases hc : c < (b.getD r []).length
    · exact Or.inl (getD_updAt_self _ hc f _)
    · exact Or.inr (by rw [updAt_of_le _ c f (by omega)])
  · rw [updAt_of_le b r _ (by omega)]
    exact Or.inr rfl

theorem getCell_modifyCell_self (b : Board) {r c : Nat} (f : Cell → Cell)
    (hr : r < b.length) (hc : c < (b.getD r []).length) :
    getCell (modifyCell b r c f) r c = f (getCell b r c) := by
  unfold getCell modifyCell
  rw [getD_updAt_self b hr, getD_updAt_self _ hc]

/-- A projection untouched by the cell update is untouched on the whole
board. -/
theorem proj_getCell_modifyCell {β : Type} (proj : Cell → β) (f : Cell → Cell)
    (hf : ∀ cell, proj (f cell) = proj cell) (b : Board) (r c r' c' : Nat) :
    proj (getCell (modifyCell b r c f) r' c') = proj (getCell b r' c') := by
  by_cases h : (r, c) = (r', c')
  · obtain ⟨h1, h2⟩ := Prod.mk.injEq .. ▸ h
    subst h1; subst h2
    rcases getCell_modifyCell_self_or b r c f with h | h
    · rw [h, hf]
    · rw [h]
  · rw [getCell_modifyCell_ne b h]

theorem modifyCell_dims {b : Board} (h : Dims9 b) (r c : Nat) (f : Cell → Cell) :
    Dims9 (modifyCell b r c f) := by
  obtain ⟨hlen, hrows⟩ := h
  refine ⟨by rw [modifyCell, updAt_length]; exact hlen, ?_⟩
  intro row hrow
  unfold modifyCell at hrow
  rcases mem_updAt hrow with h | ⟨x, hx, hrx⟩
  · exact hrows row h
  · rw [hrx, updAt_length]
    exact hrows x hx

/-- Out of the 9×9 range every cell reads as the default unsolved cell. -/
theorem getCell_oob {b : Board} (h : Dims9 b) {r c : Nat} (hrc : 9 ≤ r ∨ 9 ≤ c) :
    getCell b r c = Cell.unsolved := by
  obtain ⟨hlen, hrows⟩ := h
  unfold getCell
  rcases hrc with hr | hc
  · have h1 : b.getD r [] = [] := by
      rw [List.getD_eq_getElem?_getD, List.getElem?_eq_none (by omega)]
      rfl
    rw [h1]
    rfl
  · have h2 : (b.getD r []).length ≤ c := by
      by_cases hrr : r < b.length
      · have hmem : b.getD r [] ∈ b := by
          rw [List.getD_eq_getElem?_getD, List.getElem?_eq_getElem hrr]
          exact List.getElem_mem hrr
        rw [hrows _ hmem]
        omega
      · have h1 : b.getD r [] = [] := by
          rw [List.getD_eq_getElem?_getD, List.getElem?_eq_none (by omega)]
          rfl
        rw [h1]
        simp
    rw [List.getD_eq_getElem?_getD (b.getD r []) c, List.getElem?_eq_none h2]
    rfl

/-! ## Fold over `List.range` with an indexed invariant -/

theorem foldl_range_inv {β : Type} (f : β → Nat → β) (P : Nat → β → Prop) (n : Nat)
    (init : β) (h0 : P 0 init)
    (hstep : ∀ i acc, i < n → P i acc → P (i + 1) (f acc i)) :
    P n ((List.range n).foldl f init) := by
  induction n with
  | zero => simpa using h0
  | succ m ih =>
    rw [List.range_succ, List.foldl_append]
    exact hstep m _ (by omega)
      (ih (fun i acc hi hacc => hstep i acc (by omega) hacc))

/-- Weaker form: a step-invariant property. -/
theorem foldl_range_pres {β : Type} (f : β → Nat → β) (Q : β → Prop) (n : Nat)
    (init : β) (h0 : Q init) (hstep : ∀ i acc, i < n → Q acc → Q (f acc i)) :
    Q ((List.range n).foldl f init) :=
  foldl_range_inv f (fun _ acc => Q acc) n init h0 hstep

/-! ## Characterisation of `make_blocks` -/

theorem mem_insertSol {l : List Int} {x y : Int} :
    y ∈ insertSol l x ↔ y ∈ l ∨ y = x := by
  unfold insertSol
  by_cases h : x ∈ l
  · simp only [if_pos h]
    constructor
    · exact Or.inl
    · rintro (hy | rfl)
      · exact hy
      · exact h
  · simp [if_neg h]

theorem nodup_insertSol {l : List Int} (h : l.Nodup) (x : Int) :
    (insertSol l x).Nodup := by
  unfold insertSol
  by_cases hx : x ∈ l
  · simpa [if_pos hx] using h
  · rw [if_neg hx]
    refine List.Nodup.append h (List.nodup_singleton x) ?_
    intro a ha hax
    rw [List.mem_singleton] at hax
    exact hx (hax ▸ ha)

theorem block_index_lt : ∀ r, r < 9 → ∀ c, c < 9 → block_index r c < 9 := by decide

theorem getD_replicate_nil : ∀ (n i : Nat), (List.replicate n ([] : List Int)).getD i [] = []
  | 0, _ => by simp [List.getD]
  | n + 1, 0 => rfl
  | n + 1, i + 1 => by
      rw [List.replicate_succ, getD_cons_succ']
      exact getD_replicate_nil n i

/-- What ends up in each block set: the invariant carried through the row-major
scan of `make_blocks`. -/
def BlocksSpec (b : Board) (P : Nat × Nat → Prop) (blocks : Blocks) : Prop :=
  blocks.length = 9 ∧ ∀ i d,
    (d ∈ blocks.getD i [] ↔
      ∃ r c, r < 9 ∧ c < 9 ∧ P (r, c) ∧ block_index r c = i ∧
        (getCell b r c).solution = some d) ∧
    (blocks.getD i []).Nodup

theorem make_blocks_spec (b : Board) :
    BlocksSpec b (fun _ => True) (make_blocks b) := by
  unfold make_blocks
  have main := foldl_range_inv
    (fun blocks r => (List.range 9).foldl (fun blocks c =>
      match (getCell b r c).solution with
      | some d => updAt blocks (block_index r c) (fun s => insertSol s d)
      | none => blocks) blocks)
    (fun r blocks => BlocksSpec b (fun p => p.1 < r) blocks) 9
    (List.replicate 9 [])
    ?init ?step
  · obtain ⟨hlen, hmain⟩ := main
    refine ⟨hlen, fun i d => ?_⟩
    obtain ⟨hiff, hnd⟩ := hmain i d
    refine ⟨hiff.trans ?_, hnd⟩
    constructor
    · rintro ⟨r, c, hr, hc, _, hbi, hsol⟩
      exact ⟨r, c, hr, hc, trivial, hbi, hsol⟩
    · rintro ⟨r, c, hr, hc, _, hbi, hsol⟩
      exact ⟨r, c, hr, hc, hr, hbi, hsol⟩
  · refine ⟨List.length_replicate 9 [], fun i d => ?_⟩
    rw [getD_replicate_nil]
    simp
  · intro r blocks hr hblocks
    have inner := foldl_range_inv
      (fun blocks c =>
        match (getCell b r c).solution with
        | some d => updAt blocks (block_index r c) (fun s => insertSol s d)
        | none => blocks)
      (fun c blocks => BlocksSpec b (fun p => p.1 < r ∨ (p.1 = r ∧ p.2 < c)) blocks) 9
      blocks ?innerinit ?innerstep
    · obtain ⟨hlen, hinner⟩ := inner
      refine ⟨hlen, fun i d => ?_⟩
      obtain ⟨hiff, hnd⟩ := hinner i d
      refine ⟨hiff.trans ?_, hnd⟩
      constructor
      · rintro ⟨rr, cc, hrr, hcc, hP, hbi, hsol⟩
        refine ⟨rr, cc, hrr, hcc, ?_, hbi, hsol⟩
        rcases hP with h | ⟨h, _⟩ <;> omega
      · rintro ⟨rr, cc, hrr, hcc, hP, hbi, hsol⟩
        refine ⟨rr, cc, hrr, hcc, ?_, hbi, hsol⟩
        rcases Nat.lt_or_ge rr r with h | h
        · exact Or.inl h
        · exact Or.inr ⟨by omega, hcc⟩
    · obtain ⟨hlen, hb⟩ := hblocks
      refine ⟨hlen, fun i d => ?_⟩
      obtain ⟨hiff, hnd⟩ := hb i d
      refine ⟨hiff.trans ?_, hnd⟩
      constructor
      · rintro ⟨rr, cc, hrr, hcc, hP, hbi, hsol⟩
        exact ⟨rr, cc, hrr, hcc, Or.inl hP, hbi, hsol⟩
      · rintro ⟨rr, cc, hrr, hcc, hP, hbi, hsol⟩
        refine ⟨rr, cc, hrr, hcc, ?_, hbi, hsol⟩
        rcases hP with h | ⟨_, h⟩
        · exact h
        · omega
    · intro c blocks hc hblocks
      obtain ⟨hlen, hb⟩ := hblocks
      rcases hsol : (getCell b r c).solution with _ | dd
      · refine ⟨by simp only [hsol]; exact hlen, fun i d => ?_⟩
        obtain ⟨hiff, hnd⟩ := hb i d
        simp only [hsol]
        refine ⟨hiff.trans ?_, hnd⟩
        constructor
        · rintro ⟨rr, cc, hrr, hcc, hP, hbi, hsol'⟩
          refine ⟨rr, cc, hrr, hcc, ?_, hbi, hsol'⟩
          rcases hP with h | ⟨h1, h2⟩
          · exact Or.inl h
          · exact Or.inr ⟨h1, by omega⟩
        · rintro ⟨rr, cc, hrr, hcc, hP, hbi, hsol'⟩
          refine ⟨rr, cc, hrr, hcc, ?_, hbi, hsol'⟩
          rcases hP with h | ⟨h1, h2⟩
          · exact Or.inl h
          · rcases Nat.lt_or_ge cc c with h3 | h3
            · exact Or.inr ⟨h1, h3⟩
            · exfalso
              have : cc = c := by omega
              subst this
              rw [h1] at hsol'
              rw [hsol] at hsol'
              exact Option.noConfusion hsol'
      · have hbi9 : block_index r c < 9 := block_index_lt r hr c hc
        refine ⟨by simp only [hsol]; rw [updAt_length]; exact hlen, fun i d => ?_⟩
        obtain ⟨hiff, hnd⟩ := hb i d
        simp only [hsol]
        by_cases hieq : block_index r c = i
        · subst hieq
          rw [getD_updAt_self blocks (by omega)]
          constructor
          · constructor
            · intro hmem
              rcases mem_insertSol.mp hmem with hmem' | rfl
              · obtain ⟨rr, cc, hrr, hcc, hP, hbi, hsol'⟩ := hiff.mp hmem'
                refine ⟨rr, cc, hrr, hcc, ?_, hbi, hsol'⟩
                rcases hP with h | ⟨h1, h2⟩
                · exact Or.inl h
                · exact Or.inr ⟨h1, by omega⟩
              · exact ⟨r, c, hr, hc, Or.inr ⟨rfl, by omega⟩, rfl, hsol⟩
            · rintro ⟨rr, cc, hrr, hcc, hP, hbi, hsol'⟩
              apply mem_insertSol.mpr
              rcases hP with h | ⟨h1, h2⟩
              · exact Or.inl (hiff.mpr ⟨rr, cc, hrr, hcc, Or.inl h, hbi, hsol'⟩)
              · rcases Nat.lt_or_ge cc c with h3 | h3
                · exact Or.inl (hiff.mpr ⟨rr, cc, hrr, hcc, Or.inr ⟨h1, h3⟩, hbi, hsol'⟩)
                · have hcceq : cc = c := by omega
                  subst hcceq
                  subst h1
                  rw [hsol] at hsol'
                  exact Or.inr (by injection hsol' with h4; exact h4.symm ▸ rfl)
          · exact nodup_insertSol hnd dd
        · rw [getD_updAt_ne blocks hieq]
          refine ⟨hiff.trans ?_, hnd⟩
          constructor
          · rintro ⟨rr, cc, hrr, hcc, hP, hbi, hsol'⟩
            refine ⟨rr, cc, hrr, hcc, ?_, hbi, hsol'⟩
            rcases hP with h | ⟨h1, h2⟩
            · exact Or.inl h
            · exact Or.inr ⟨h1, by omega⟩
          · rintro ⟨rr, cc, hrr, hcc, hP, hbi, hsol'⟩
            refine ⟨rr, cc, hrr, hcc, ?_, hbi, hsol'⟩
            rcases hP with h | ⟨h1, h2⟩
            · exact Or.inl h
            · rcases Nat.lt_or_ge cc c with h3 | h3
              · exact Or.inr ⟨h1, h3⟩
              · exfalso
                have hcceq : cc = c := by omega
                subst hcceq
                subst h1
                exact hieq hbi

theorem mem_make_blocks {b : Board} {i : Nat} {d : Int} :
    d ∈ (make_blocks b).getD i [] ↔
      ∃ r c, r < 9 ∧ c < 9 ∧ block_index r c = i ∧ (getCell b r c).solution = some d := by
  obtain ⟨_, h⟩ := make_blocks_spec b
  refine ((h i d).1).trans ?_
  constructor
  · rintro ⟨r, c, hr, hc, _, hbi, hsol⟩
    exact ⟨r, c, hr, hc, hbi, hsol⟩
  · rintro ⟨r, c, hr, hc, hbi, hsol⟩
    exact ⟨r, c, hr, hc, trivial, hbi, hsol⟩

theorem make_blocks_nodup (b : Board) (i : Nat) : ((make_blocks b).getD i []).Nodup :=
  ((make_blocks_spec b).2 i 0).2

theorem mem_allCells {p : Nat × Nat} : p ∈ allCells ↔ p.1 < 9 ∧ p.2 < 9 := by
  unfold allCells
  constructor
  · intro h
    rw [List.mem_flatMap] at h
    obtain ⟨r, hr, hmem⟩ := h
    rw [List.mem_map] at hmem
    obtain ⟨c, hc, rfl⟩ := hmem
    exact ⟨List.mem_range.mp hr, List.mem_range.mp hc⟩
  · rintro ⟨h1, h2⟩
    obtain ⟨r, c⟩ := p
    rw [List.mem_flatMap]
    exact ⟨r, List.mem_range.mpr h1, List.mem_map.mpr ⟨c, List.mem_range.mpr h2, rfl⟩⟩

theorem length_filterMap_lt {α β : Type} {l : List α} {f : α → Option β} {x : α}
    (hx : x ∈ l) (hfx : f x = none) : (l.filterMap f).length < l.length := by
  induction l with
  | nil => simp at hx
  | cons y ys ih =>
    rcases List.mem_cons.mp hx with rfl | hmem
    · rw [List.filterMap_cons, hfx]
      have h1 := List.length_filterMap_le f ys
      simpa using Nat.lt_succ_of_le h1
    · cases hfy : f y with
      | none =>
        rw [List.filterMap_cons, hfy]
        exact Nat.lt_trans (ih hmem) (by simp)
      | some z =>
        rw [List.filterMap_cons, hfy]
        simpa using ih hmem

/-- The solved digits (with multiplicity) of the nine cells of region `i`. -/
def regionDigits (b : Board) (i : Nat) : List Int :=
  (allCells.filter (fun p => block_index p.1 p.2 == i)).filterMap
    (fun p => (getCell b p.1 p.2).solution)

theorem make_blocks_subset_region {b : Board} {i : Nat} {d : Int}
    (hd : d ∈ (make_blocks b).getD i []) : d ∈ regionDigits b i := by
  obtain ⟨r, c, hr, hc, hbi, hsol⟩ := mem_make_blocks.mp hd
  unfold regionDigits
  rw [List.mem_filterMap]
  refine ⟨(r, c), ?_, hsol⟩
  rw [List.mem_filter]
  exact ⟨mem_allCells.mpr ⟨hr, hc⟩, by simpa using hbi⟩

theorem region_cells_length : ∀ i, i < 9 →
    (allCells.filter (fun p => block_index p.1 p.2 == i)).length = 9 := by decide

theorem make_blocks_le_region (b : Board) (i : Nat) :
    ((make_blocks b).getD i []).length ≤ (regionDigits b i).length := by
  have hnd := make_blocks_nodup b i
  rw [← List.toFinset_card_of_nodup hnd]
  calc ((make_blocks b).getD i []).toFinset.card
      ≤ (regionDigits b i).toFinset.card := by
        apply Finset.card_le_card
        intro x hx
        rw [List.mem_toFinset] at hx ⊢
        exact make_blocks_subset_region hx
    _ ≤ (regionDigits b i).length := List.toFinset_card_le _

theorem make_blocks_getD_le9 (b : Board) (i : Nat) :
    ((make_blocks b).getD i []).length ≤ 9 := by
  by_cases hi : i < 9
  · calc ((make_blocks b).getD i []).length
        ≤ (regionDigits b i).length := make_blocks_le_region b i
      _ ≤ (allCells.filter (fun p => block_index p.1 p.2 == i)).length :=
          List.length_filterMap_le _ _
      _ = 9 := region_cells_length i hi
  · have hlen : (make_blocks b).length = 9 := (make_blocks_spec b).1
    have : (make_blocks b).getD i [] = [] := by
      rw [List.getD_eq_getElem?_getD, List.getElem?_eq_none (by omega)]
      rfl
    rw [this]
    simp

theorem make_blocks_lt9_of_unsolved {b : Board} {i r c : Nat}
    (hr : r < 9) (hc : c < 9) (hbi : block_index r c = i)
    (hsol : (getCell b r c).solution = none) :
    ((make_blocks b).getD i []).length < 9 := by
  have hi : i < 9 := hbi ▸ block_index_lt r hr c hc
  have hmem : (r, c) ∈ allCells.filter (fun p => block_index p.1 p.2 == i) := by
    rw [List.mem_filter]
    exact ⟨mem_allCells.mpr ⟨hr, hc⟩, by simpa using hbi⟩
  calc ((make_blocks b).getD i []).length
      ≤ (regionDigits b i).length := make_blocks_le_region b i
    _ < (allCells.filter (fun p => block_index p.1 p.2 == i)).length :=
        length_filterMap_lt hmem hsol
    _ = 9 := region_cells_length i hi

/-! ## `found_solution` as a no-op on cells without the digit -/

theorem clearCand_of_not_mem {cell : Cell} {d : Int} (h : d ∉ cell.candidates) :
    clearCand d cell = cell := by
  unfold clearCand
  have heq : cell.candidates.filter (fun x => x != d) = cell.candidates :=
    List.filter_eq_self.mpr (fun x hx => bne_iff_ne.mpr (fun he => h (he ▸ hx)))
  rw [heq]

theorem modify_clearCand_pres {b0 : Board} {r c : Nat} {d : Int}
    (habs : d ∉ (getCell b0 r c).candidates) (b : Board) (rr cc : Nat)
    (hQ : getCell b r c = getCell b0 r c) :
    getCell (modifyCell b rr cc (clearCand d)) r c = getCell b0 r c := by
  by_cases h : (rr, cc) = (r, c)
  · have h1 : rr = r := congrArg Prod.fst h
    have h2 : cc = c := congrArg Prod.snd h
    subst h1
    subst h2
    rcases getCell_modifyCell_self_or b rr cc (clearCand d) with h' | h'
    · rw [h', hQ, clearCand_of_not_mem habs]
    · rw [h', hQ]
  · rw [getCell_modifyCell_ne b h, hQ]

theorem found_solution_board_noop (s : Sudoku) (row col r c : Nat) (d : Int)
    (hne : (r, c) ≠ (row, col))
    (habs : d ∉ (getCell s.board r c).candidates) :
    getCell (found_solution s row col d).board r c = getCell s.board r c := by
  unfold found_solution
  dsimp only
  have h0 : getCell (modifyCell s.board row col
      (fun cell => { cell with solution := some d, candidates := [] })) r c
      = getCell s.board r c :=
    getCell_modifyCell_ne s.board (Ne.symm hne) _
  refine foldl_range_pres _
    (fun b => getCell b r c = getCell s.board r c) 3 _ ?_ ?_
  · refine foldl_range_pres _
      (fun b => getCell b r c = getCell s.board r c) 9 _ ?_ ?_
    · refine foldl_range_pres _
        (fun b => getCell b r c = getCell s.board r c) 9 _ h0 ?_
      · intro i acc _ hacc
        exact modify_clearCand_pres habs acc i col hacc
    · intro i acc _ hacc
      exact modify_clearCand_pres habs acc row i hacc
  · intro i acc _ hacc
    refine foldl_range_pres _
      (fun b => getCell b r c = getCell s.board r c) 3 _ hacc ?_
    intro j acc2 _ hacc2
    exact modify_clearCand_pres habs acc2 _ _ hacc2

/-! ## Helper facts for `solve` on fully pre-filled boards -/

theorem modifyCell_eq_self {b : Board} {r c : Nat} {f : Cell → Cell}
    (h : f (getCell b r c) = getCell b r c) : modifyCell b r c f = b :=
  updAt_eq_self b r _ [] (updAt_eq_self (b.getD r []) c f Cell.unsolved h)

theorem guessLoop_done {cells : List (Nat × Nat)} {fuel : Nat} (b : Board)
    {cell_idx : Nat} (hci : cells.length ≤ cell_idx) (hfuel : fuel ≠ 0) :
    guessLoop cells fuel b cell_idx = some (true, b) := by
  cases fuel with
  | zero => exact absurd rfl hfuel
  | succ n =>
    rw [guessLoop]
    rw [if_neg (by omega)]

theorem SOLVE_FUEL_ne_zero : SOLVE_FUEL ≠ 0 := by
  unfold SOLVE_FUEL
  positivity

theorem find_candidates_of_all_solved {arrange : List Int → List Int} {s : Sudoku}
    (h : ∀ r, r < 9 → ∀ c, c < 9 → (getCell s.board r c).solution.isSome) :
    find_candidates arrange s = s := by
  unfold find_candidates
  refine foldl_range_pres _ (fun s' => s' = s) 9 s rfl ?_
  intro r acc hr hacc
  subst hacc
  refine foldl_range_pres _ (fun s' => s' = acc) 9 acc rfl ?_
  intro c acc2 hc hacc2
  subst hacc2
  rw [if_pos (h _ hr _ hc)]

theorem unsolved_cells_of_all_solved {s : Sudoku}
    (h : ∀ r, r < 9 → ∀ c, c < 9 → (getCell s.board r c).solution.isSome) :
    unsolved_cells s = [] := by
  unfold unsolved_cells
  rw [List.filter_eq_nil_iff]
  intro p hp
  obtain ⟨h1, h2⟩ := mem_allCells.mp hp
  simp only [Bool.not_eq_true, Option.isNone_eq_false_iff]
  exact h _ h1 _ h2

theorem use_final_of_all_solved {b : Board}
    (h : ∀ r, r < 9 → ∀ c, c < 9 → (getCell b r c).solution.isSome) :
    use_final_candidates b = b := by
  unfold use_final_candidates
  refine foldl_range_pres _ (fun b' => b' = b) 9 b rfl ?_
  intro r acc hr hacc
  subst hacc
  refine foldl_range_pres _ (fun b' => b' = acc) 9 acc rfl ?_
  intro c acc2 hc hacc2
  subst hacc2
  apply modifyCell_eq_self
  have hsome := h _ hr _ hc
  rw [Option.isSome_iff_exists] at hsome
  obtain ⟨d, hd⟩ := hsome
  rw [finalizeCell, if_neg (by rw [hd]; simp)]

/-! ## Claim theorems: C1, C3, C6, C7, C8, C9 -/

/-- C1 (code bug evidence): `gBad` is a well-formed input whose pre-filled
cells are pairwise distinct within every row, column and block, yet
`solve` succeeds and the returned grid assigns the same digit to two distinct
cells of one block that share neither a row nor a column.  The claim's
uniqueness invariant fails because `can_choose_candidate` (main.rs 238–263)
scans only the row and the column, never the block, so block consistency of
tentative candidates is *not* implied for block-mates in different rows and
columns. -/
theorem C1_block_duplicate_in_solved_output :
    WfBoard gBad ∧ prefillOkB gBad = true ∧ someWithBlockDup (solve gBad) = true :=
  ⟨by decide, by decide, by decide⟩

/-- C3 counterexample: `allOnes` has two identical pre-filled digits in the
same row (indeed everywhere), yet `solve` returns a solved grid — the input
precondition is not validated, contradicting the claim that such grids must
yield the failure result. -/
theorem C3_counterexample_duplicates_accepted :
    rowDupPrefillB allOnes = true ∧ solve allOnes = some allOnes :=
  ⟨by decide, by decide⟩

/-- C3 (amended): `solve` performs no validation of pre-filled duplicates.  A
board whose 81 cells are all pre-filled is returned unchanged as a success,
identical digits in a row, column or block notwithstanding; the failure result
arises only from exhaustion of the backtracking search. -/
theorem C3_amended_all_solved_returned (b : Board)
    (h : ∀ r, r < 9 → ∀ c, c < 9 → (getCell b r c).solution.isSome) :
    solve b = some b := by
  unfold solve solveR solveWith
  rw [find_candidates_of_all_solved h, guess_solutions,
    unsolved_cells_of_all_solved h,
    guessLoop_done (Sudoku.new b).board (by simp) SOLVE_FUEL_ne_zero]
  show some (use_final_candidates b) = some b
  rw [use_final_of_all_solved h]

/-- C3 amended, witness at `allOnes`. -/
theorem C3_amended_witness : solve allOnes = some allOnes :=
  C3_amended_all_solved_returned allOnes (by decide)

/-- C6 counterexample: on the fixed input `gBad`, the ascending and the
reversed candidate enumeration orders (both legitimate iteration orders of the
same `HashSet` contents) lead to *different* solved grids, so two runs of
`solve` on the same input need not return the same grid. -/
theorem C6_counterexample_order_dependent :
    (solveR (fun l => l) gBad).isSome = true ∧
    (solveR List.reverse gBad).isSome = true ∧
    solveR (fun l => l) gBad ≠ solveR List.reverse gBad :=
  ⟨by decide, by decide, by decide⟩

/-- C6 (amended): `solve` is deterministic only relative to the candidate
enumeration order: a run is a pure function of the input board and the order,
so two runs with the same order on the same board agree; and there exists an
input on which two different enumeration orders of the same candidate sets
produce two different solved grids. -/
theorem C6_amended_deterministic_given_order :
    (∀ (arr : List Int → List Int) (b : Board) (r1 r2 : Option Board),
      solveR arr b = r1 → solveR arr b = r2 → r1 = r2) ∧
    ∃ b : Board, (solveR (fun l => l) b).isSome = true ∧
      (solveR List.reverse b).isSome = true ∧
      solveR (fun l => l) b ≠ solveR List.reverse b :=
  ⟨fun _ _ _ _ h1 h2 => h1 ▸ h2, gBad, by decide, by decide, by decide⟩

/-- C6 amended, witness: two runs with the ascending order on the default
puzzle agree. -/
theorem C6_amended_witness :
    solveR (fun l => l) default_board = solveR (fun l => l) default_board :=
  C6_amended_deterministic_given_order.1 (fun l => l) default_board _ _ rfl rfl

/-- C7: each of the nine derived block sets holds at most 9 digits (a block
region only has nine cells), and `assert!(block.solutions.len() < 9)` in
`find_cell_candidates` holds whenever candidates are computed for an unsolved
cell of a freshly constructed `Sudoku`: a block with an unsolved cell has at
most 8 solved ones, so the assertion can never fire. -/
theorem C7_block_size_assertion (b : Board) (i : Nat) :
    ((make_blocks b).getD i []).length ≤ 9 ∧
    (∀ row col, row < 9 → col < 9 → (getCell b row col).solution = none →
      find_cell_candidates_assertion (Sudoku.new b) row col) := by
  refine ⟨make_blocks_getD_le9 b i, ?_⟩
  intro row col hrow hcol hsol
  exact make_blocks_lt9_of_unsolved hrow hcol rfl hsol

/-- C7 witness at the default puzzle (cell `0:0` is unsolved). -/
theorem C7_witness :
    ((make_blocks default_board).getD 0 []).length ≤ 9 ∧
    find_cell_candidates_assertion (Sudoku.new default_board) 0 0 :=
  ⟨(C7_block_size_assertion default_board 0).1,
    (C7_block_size_assertion default_board 0).2 0 0 (by decide) (by decide) (by decide)⟩

/-- C8: `found_solution (row, col, d)` leaves every cell of the same row,
column or block unchanged whenever that cell's candidate set does not contain
`d` — removing an absent digit is a no-op with no error and no state change. -/
theorem C8_found_solution_noop (s : Sudoku) (row col r c : Nat) (d : Int)
    (hunit : r = row ∨ c = col ∨ block_index r c = block_index row col)
    (hne : (r, c) ≠ (row, col))
    (habs : d ∉ (getCell s.board r c).candidates) :
    getCell (found_solution s row col d).board r c = getCell s.board r c :=
  found_solution_board_noop s row col r c d hne habs

/-- C8 witness: committing 5 at `0:0` of the default puzzle does not change
the (same-row) solved cell `0:2`. -/
theorem C8_witness :
    getCell (found_solution (Sudoku.new default_board) 0 0 5).board 0 2
      = getCell (Sudoku.new default_board).board 0 2 :=
  C8_found_solution_noop (Sudoku.new default_board) 0 0 0 2 5 (Or.inl rfl)
    (by decide) (by decide)

/-- C9: on the classic example puzzle, block 0 derives exactly the solved-digit
set `{5, 2, 7, 9}` (as a list, in row-major insertion order); and in general a
digit belongs to the derived set of block `i` exactly when some cell of that
3×3 region is solved with it. -/
theorem C9_make_blocks_regions :
    (make_blocks default_board).getD 0 [] = [5, 2, 7, 9] ∧
    ∀ (b : Board) (i : Nat) (d : Int),
      d ∈ (make_blocks b).getD i [] ↔
        ∃ r c, r < 9 ∧ c < 9 ∧ block_index r c = i ∧
          (getCell b r c).solution = some d :=
  ⟨by decide, fun _ _ _ => mem_make_blocks⟩

/-- C9 witness: the general region characterisation instantiated: digit 5 is in
block 0 of the default puzzle because cell `0:2` is solved with 5. -/
theorem C9_witness : (5 : Int) ∈ (make_blocks default_board).getD 0 [] :=
  (C9_make_blocks_regions.2 default_board 0 5).mpr
    ⟨0, 2, by omega, by omega, by decide, by decide⟩

/-! ## Solution-field preservation through every phase (C4 support) -/

theorem found_solution_solution_ne (s : Sudoku) (row col : Nat) (d : Int) {r c : Nat}
    (hne : (r, c) ≠ (row, col)) :
    (getCell (found_solution s row col d).board r c).solution
      = (getCell s.board r c).solution := by
  unfold found_solution
  dsimp only
  have h0 : (getCell (modifyCell s.board row col
      (fun cell => { cell with solution := some d, candidates := [] })) r c).solution
      = (getCell s.board r c).solution := by
    rw [getCell_modifyCell_ne s.board (Ne.symm hne)]
  refine foldl_range_pres _
    (fun b => (getCell b r c).solution = (getCell s.board r c).solution) 3 _ ?_ ?_
  · refine foldl_range_pres _
      (fun b => (getCell b r c).solution = (getCell s.board r c).solution) 9 _ ?_ ?_
    · refine foldl_range_pres _
        (fun b => (getCell b r c).solution = (getCell s.board r c).solution) 9 _ h0 ?_
      intro i acc _ hacc
      exact (proj_getCell_modifyCell (fun cell => cell.solution) (clearCand d)
        (fun _ => rfl) acc i col r c).trans hacc
    · intro i acc _ hacc
      exact (proj_getCell_modifyCell (fun cell => cell.solution) (clearCand d)
        (fun _ => rfl) acc row i r c).trans hacc
  · intro i acc _ hacc
    refine foldl_range_pres _
      (fun b => (getCell b r c).solution = (getCell s.board r c).solution) 3 _ hacc ?_
    intro j acc2 _ hacc2
    exact (proj_getCell_modifyCell (fun cell => cell.solution) (clearCand d)
      (fun _ => rfl) acc2 _ _ r c).trans hacc2

/-- The solution and candidate-set fields of every cell, bundled: the
backtracking loop never changes them. -/
def scPart (cell : Cell) : Option Int × List Int :=
  (cell.solution, cell.candidates)

theorem innerLoop_scPart (cands : List Int) (row col : Nat) :
    ∀ (steps : Nat) (b : Board) (ci r c : Nat),
      scPart (getCell (innerLoop cands row col b ci steps).1 r c)
        = scPart (getCell b r c) := by
  intro steps
  induction steps with
  | zero => intro b ci r c; rfl
  | succ n ih =>
    intro b ci r c
    rw [innerLoop]
    split
    · dsimp only
      split
      · exact proj_getCell_modifyCell scPart
          (fun cell => { cell with candidate := some (cands.getD ci 0), candidate_idx := some (ci + 1) })
          (fun _ => rfl) b row col r c
      · exact (ih _ _ r c).trans (proj_getCell_modifyCell scPart
          (fun cell => { cell with candidate := some (cands.getD ci 0), candidate_idx := some (ci + 1) })
          (fun _ => rfl) b row col r c)
    · rfl

theorem guessLoop_scPart (cells : List (Nat × Nat)) :
    ∀ (fuel : Nat) (b : Board) (j : Nat) (res : Bool × Board),
      guessLoop cells fuel b j = some res →
      ∀ r c, scPart (getCell res.2 r c) = scPart (getCell b r c) := by
  intro fuel
  induction fuel with
  | zero => intro b j res h; exact absurd h (by rw [guessLoop]; simp)
  | succ n ih =>
    intro b j res h r c
    rw [guessLoop] at h
    split at h
    · dsimp only at h
      split at h
      · exact (ih _ _ _ h r c).trans (innerLoop_scPart _ _ _ _ _ _ r c)
      · split at h
        · cases h
          exact ((proj_getCell_modifyCell scPart
            (fun cell => { cell with candidate := none, candidate_idx := none })
            (fun _ => rfl) _ _ _ r c).trans
            (innerLoop_scPart _ _ _ _ _ _ r c))
        · exact (ih _ _ _ h r c).trans
            (((proj_getCell_modifyCell scPart
              (fun cell => { cell with candidate := none, candidate_idx := none })
              (fun _ => rfl) _ _ _ r c).trans
              (innerLoop_scPart _ _ _ _ _ _ r c)))
    · cases h
      rfl

/-- Generic preservation principle for `use_final_candidates`. -/
theorem use_final_pres (Q : Board → Prop)
    (hstep : ∀ b row col, row < 9 → col < 9 → Q b →
      Q (modifyCell b row col finalizeCell))
    (b : Board) (h : Q b) : Q (use_final_candidates b) := by
  unfold use_final_candidates
  refine foldl_range_pres _ Q 9 b h ?_
  intro row acc hrow hacc
  refine foldl_range_pres _ Q 9 acc hacc ?_
  intro col acc2 hcol hacc2
  exact hstep acc2 row col hrow hcol hacc2

theorem guessLoop_solution_eq (cells : List (Nat × Nat)) (fuel : Nat) (b : Board)
    (j : Nat) (flag : Bool) (bF : Board)
    (h : guessLoop cells fuel b j = some (flag, bF)) (r c : Nat) :
    (getCell bF r c).solution = (getCell b r c).solution := by
  have h2 := guessLoop_scPart cells fuel b j (flag, bF) h r c
  exact congrArg Prod.fst h2

theorem guessLoop_candidates_eq (cells : List (Nat × Nat)) (fuel : Nat) (b : Board)
    (j : Nat) (flag : Bool) (bF : Board)
    (h : guessLoop cells fuel b j = some (flag, bF)) (r c : Nat) :
    (getCell bF r c).candidates = (getCell b r c).candidates := by
  have h2 := guessLoop_scPart cells fuel b j (flag, bF) h r c
  exact congrArg Prod.snd h2

theorem use_final_solution_some (b : Board) (r c : Nat) (d : Int)
    (h : (getCell b r c).solution = some d) :
    (getCell (use_final_candidates b) r c).solution = some d := by
  refine use_final_pres (fun b2 => (getCell b2 r c).solution = some d) ?_ b h
  intro acc2 i j _ _ hacc2
  by_cases hee : (i, j) = (r, c)
  · have h1 : i = r := congrArg Prod.fst hee
    have h2 : j = c := congrArg Prod.snd hee
    subst h1
    subst h2
    rcases getCell_modifyCell_self_or acc2 i j finalizeCell with h' | h'
    · rw [h', finalizeCell, if_neg (by rw [hacc2]; simp)]
      exact hacc2
    · rw [h']
      exact hacc2
  · rw [getCell_modifyCell_ne acc2 hee]
    exact hacc2

/-- Generic preservation principle for the propagation pass: a property `Q`
of the solver state survives `find_candidates` as soon as it survives the two
kinds of mutation the pass performs at an unsolved cell (committing a singleton
candidate set, and storing a multi-candidate set). -/
theorem find_candidates_pres (arrange : List Int → List Int) (Q : Sudoku → Prop)
    (hfound : ∀ s row col, row < 9 → col < 9 → Q s →
      (getCell s.board row col).solution.isSome = false →
      ((find_cell_candidates s row col).length == 1) = true →
      Q (found_solution s row col ((find_cell_candidates s row col).headD 0)))
    (hstore : ∀ s row col, row < 9 → col < 9 → Q s →
      (getCell s.board row col).solution.isSome = false →
      ((find_cell_candidates s row col).length == 1) = false →
      (find_cell_candidates s row col).isEmpty = false →
      Q { s with board := modifyCell s.board row col (fun cell => { cell with candidates := arrange (find_cell_candidates s row col) }) })
    (s : Sudoku) (h : Q s) : Q (find_candidates arrange s) := by
  unfold find_candidates
  refine foldl_range_pres _ Q 9 s h ?_
  intro row acc hrow hacc
  refine foldl_range_pres _ Q 9 acc hacc ?_
  intro col acc2 hcol hacc2
  dsimp only
  by_cases hsome : (getCell acc2.board row col).solution.isSome
  · rw [if_pos hsome]
    exact hacc2
  · rw [if_neg hsome]
    by_cases hlen : ((find_cell_candidates acc2 row col).length == 1) = true
    · rw [if_pos hlen]
      exact hfound acc2 row col hrow hcol hacc2 (by simpa using hsome) hlen
    · rw [if_neg hlen]
      by_cases hemp : (find_cell_candidates acc2 row col).isEmpty = true
      · rw [if_pos hemp]
        exact hacc2
      · rw [if_neg hemp]
        exact hstore acc2 row col hrow hcol hacc2 (by simpa using hsome)
          (by simpa using hlen) (by simpa using hemp)

theorem find_candidates_solution_some (arrange : List Int → List Int) (s : Sudoku)
    (r c : Nat) (d : Int) (h : (getCell s.board r c).solution = some d) :
    (getCell (find_candidates arrange s).board r c).solution = some d := by
  refine find_candidates_pres arrange
    (fun s2 => (getCell s2.board r c).solution = some d) ?_ ?_ s h
  · intro s2 row col _ _ hQ hsome _
    have hne : (r, c) ≠ (row, col) := by
      intro hh
      have h1 : r = row := congrArg Prod.fst hh
      have h2 : c = col := congrArg Prod.snd hh
      subst h1
      subst h2
      rw [hQ] at hsome
      simp at hsome
    rw [found_solution_solution_ne s2 row col _ hne]
    exact hQ
  · intro s2 row col _ _ hQ _ _ _
    exact (proj_getCell_modifyCell (fun cell => cell.solution)
      (fun cell => { cell with candidates := arrange (find_cell_candidates s2 row col) })
      (fun _ => rfl) s2.board row col r c).trans hQ

theorem solveR_some_elim {arrange : List Int → List Int} {b : Board} {g : Board}
    (h : solveR arrange b = some g) :
    ∃ bF, guessLoop (unsolved_cells (find_candidates arrange (Sudoku.new b))) SOLVE_FUEL
        (find_candidates arrange (Sudoku.new b)).board 0 = some (true, bF) ∧
      g = use_final_candidates bF := by
  unfold solveR solveWith guess_solutions at h
  rcases hgl : guessLoop (unsolved_cells (find_candidates arrange (Sudoku.new b)))
      SOLVE_FUEL (find_candidates arrange (Sudoku.new b)).board 0 with _ | fb
  · rw [hgl] at h
    simp at h
  · rw [hgl] at h
    obtain ⟨fl, bF⟩ := fb
    cases fl
    · simp at h
    · refine ⟨bF, rfl, ?_⟩
      dsimp only at h
      exact (Option.some.inj h).symm

set_option maxHeartbeats 2000000 in
/-- C4: a cell pre-filled in the input keeps its exact solution in any grid
that `solve` returns: propagation skips solved cells, `found_solution` only
writes to a currently unsolved cell, the backtracking loop only touches the
`candidate`/`candidate_idx` fields, and `use_final_candidates` only fills
cells without a solution. -/
theorem C4_prefilled_preserved (b g : Board) (r c : Nat) (d : Int)
    (hs : (getCell b r c).solution = some d) (hg : solve b = some g) :
    (getCell g r c).solution = some d := by
  unfold solve at hg
  obtain ⟨bF, hgl, hge⟩ := solveR_some_elim hg
  rw [hge]
  refine use_final_solution_some bF r c d ?_
  have h1 : (getCell (find_candidates (fun l => l) (Sudoku.new b)).board r c).solution
      = some d := find_candidates_solution_some (fun l => l) (Sudoku.new b) r c d hs
  have h3 := guessLoop_solution_eq _ _ _ _ _ _ hgl r c
  rw [h3]
  exact h1

/-- C4 witness at the fully pre-filled `allOnes` board. -/
theorem C4_witness : (getCell allOnes 0 0).solution = some 1 :=
  C4_prefilled_preserved allOnes allOnes 0 0 1 (by decide) (by decide)

/-! ## The backtracking loop: invariant, measure, termination, postconditions -/

theorem getD_eq_get' {α : Type} (l : List α) (d : α) {i : Nat} (h : i < l.length) :
    l.getD i d = l.get ⟨i, h⟩ := by
  rw [List.getD_eq_getElem?_getD, List.getElem?_eq_getElem h]
  rfl

theorem getD_mem' {α : Type} {l : List α} {i : Nat} (h : i < l.length) (d : α) :
    l.getD i d ∈ l := by
  rw [getD_eq_get' l d h]
  exact List.get_mem l i h

theorem getCell_modifyCell_self9 {b : Board} (hd : Dims9 b) {r c : Nat}
    (hr : r < 9) (hc : c < 9) (f : Cell → Cell) :
    getCell (modifyCell b r c f) r c = f (getCell b r c) := by
  obtain ⟨hlen, hrows⟩ := hd
  have hrb : r < b.length := by omega
  refine getCell_modifyCell_self b f hrb ?_
  have hmem : b.getD r [] ∈ b := getD_mem' hrb []
  rw [hrows _ hmem]
  exact hc

/-- Coordinates of the `i`-th cell in the visiting order (the loop's
`unsolved_cells[cell_idx]` read). -/
abbrev coordAt (cells : List (Nat × Nat)) (i : Nat) : Nat × Nat :=
  cells.getD i (0, 0)

/-- The stored cursor as the loop reads it (`candidate_idx.getD 0`). -/
abbrev idxVal (b : Board) (p : Nat × Nat) : Nat :=
  ((getCell b p.1 p.2).candidate_idx).getD 0

/-- Base-12 big-endian value of a digit string (Horner form). -/
def hornerAux : Nat → List Nat → Nat
  | a, [] => a
  | a, d :: l => hornerAux (a * 12 + d) l

theorem hornerAux_append (l1 l2 : List Nat) (a : Nat) :
    hornerAux a (l1 ++ l2) = hornerAux (hornerAux a l1) l2 := by
  induction l1 generalizing a with
  | nil => rfl
  | cons d t ih => exact ih (a * 12 + d)

theorem hornerAux_ge (l : List Nat) : ∀ a, a * 12 ^ l.length ≤ hornerAux a l := by
  induction l with
  | nil => intro a; simp [hornerAux]
  | cons d t ih =>
    intro a
    calc a * 12 ^ (d :: t).length = (a * 12) * 12 ^ t.length := by
          rw [List.length_cons, pow_succ]
          ring
      _ ≤ (a * 12 + d) * 12 ^ t.length := by
          exact Nat.mul_le_mul_right _ (by omega)
      _ ≤ hornerAux (a * 12 + d) t := ih _
      _ = hornerAux a (d :: t) := rfl

theorem hornerAux_lt (l : List Nat) (hl : ∀ d ∈ l, d ≤ 11) :
    ∀ a, hornerAux a l < (a + 1) * 12 ^ l.length := by
  induction l with
  | nil => intro a; simp [hornerAux]
  | cons d t ih =>
    intro a
    have hd : d ≤ 11 := hl d (by simp)
    calc hornerAux a (d :: t) = hornerAux (a * 12 + d) t := rfl
      _ < (a * 12 + d + 1) * 12 ^ t.length :=
          ih (fun x hx => hl x (List.mem_cons_of_mem _ hx)) _
      _ ≤ ((a + 1) * 12) * 12 ^ t.length := by
          exact Nat.mul_le_mul_right _ (by omega)
      _ = (a + 1) * 12 ^ (d :: t).length := by
          rw [List.length_cons, pow_succ]
          ring

/-- Strict comparison of two base-12 digit strings over `range k` that agree
below position `j` and differ there, the smaller one having digits ≤ 11. -/
theorem horner_lt_horner (g h : Nat → Nat) (k j : Nat) (hj : j < k)
    (hagree : ∀ i, i < j → g i = h i) (hlt : g j < h j) (hgb : ∀ i, i < k → g i ≤ 11) :
    hornerAux 0 ((List.range k).map g) < hornerAux 0 ((List.range k).map h) := by
  have hk : k = (j + 1) + (k - (j + 1)) := by omega
  rw [hk, List.range_add, List.range_succ]
  rw [List.map_append, List.map_append, List.map_append, List.map_append]
  rw [hornerAux_append, hornerAux_append, hornerAux_append, hornerAux_append]
  have hAA : (List.range j).map g = (List.range j).map h := by
    apply List.map_congr_left
    intro i hi
    exact hagree i (List.mem_range.mp hi)
  rw [hAA]
  set H := hornerAux 0 ((List.range j).map h) with hH
  have hlen : (((List.range (k - (j + 1))).map (fun i => (j + 1) + i)).map g).length
      = (((List.range (k - (j + 1))).map (fun i => (j + 1) + i)).map h).length := by
    simp
  have hb1 : ∀ d ∈ ((List.range (k - (j + 1))).map (fun i => (j + 1) + i)).map g, d ≤ 11 := by
    intro d hd
    rw [List.mem_map] at hd
    obtain ⟨x, hx, rfl⟩ := hd
    rw [List.mem_map] at hx
    obtain ⟨y, hy, rfl⟩ := hx
    rw [List.mem_range] at hy
    exact hgb _ (by omega)
  calc hornerAux (hornerAux H ([j].map g))
        (((List.range (k - (j + 1))).map (fun i => (j + 1) + i)).map g)
      < (hornerAux H ([j].map g) + 1) *
          12 ^ ((((List.range (k - (j + 1))).map (fun i => (j + 1) + i)).map g).length) :=
        hornerAux_lt _ hb1 _
    _ ≤ hornerAux H ([j].map h) *
          12 ^ ((((List.range (k - (j + 1))).map (fun i => (j + 1) + i)).map h).length) := by
        rw [hlen]
        apply Nat.mul_le_mul_right
        show hornerAux H [g j] + 1 ≤ hornerAux H [h j]
        show H * 12 + g j + 1 ≤ H * 12 + h j
        omega
    _ ≤ hornerAux (hornerAux H ([j].map h))
          (((List.range (k - (j + 1))).map (fun i => (j + 1) + i)).map h) :=
        hornerAux_ge _ _

/-- The loop's lexicographic progress measure: position `i` carries the stored
cursor of cell `i` when `i ≤ cell_idx` and the sentinel digit 11 when the
search has not reached (or has retreated from) cell `i`.  Every loop iteration
strictly increases this base-12 value. -/
def xiM (cells : List (Nat × Nat)) (b : Board) (j : Nat) : Nat :=
  hornerAux 0 ((List.range cells.length).map
    (fun i => if i ≤ j then idxVal b (coordAt cells i) else 11))

/-- Standing facts about the visiting order and the loop's starting board:
the list of cells is duplicate-free, lists only in-range unsolved cells, and
the starting board is 9×9 with clean search state and candidate sets of at
most nine digits. -/
def CellsOk (cells : List (Nat × Nat)) (b₀ : Board) : Prop :=
  cells.Nodup ∧
  (∀ p ∈ cells, p.1 < 9 ∧ p.2 < 9 ∧ (getCell b₀ p.1 p.2).solution = none) ∧
  (∀ r c, (getCell b₀ r c).candidate = none ∧ (getCell b₀ r c).candidate_idx = none ∧
    (getCell b₀ r c).candidates.length ≤ 9) ∧
  Dims9 b₀

/-- The loop invariant of `guess_solutions`' outer loop, at state
(board `b`, `cell_idx = j`), relative to the board `b₀` the loop started on:
solutions and candidate sets are frozen; cells the search has not reached have
clean search state; visited cells carry a tentative candidate drawn from their
candidate set; stored cursors stay within the candidate count. -/
def LoopInv (cells : List (Nat × Nat)) (b₀ b : Board) (j : Nat) : Prop :=
  Dims9 b ∧ j ≤ cells.length ∧
  (∀ r c, (getCell b r c).solution = (getCell b₀ r c).solution) ∧
  (∀ r c, (getCell b r c).candidates = (getCell b₀ r c).candidates) ∧
  (∀ r c, (r, c) ∉ cells →
    (getCell b r c).candidate = none ∧ (getCell b r c).candidate_idx = none) ∧
  (∀ i, i < cells.length → j < i →
    (getCell b (coordAt cells i).1 (coordAt cells i).2).candidate = none ∧
    (getCell b (coordAt cells i).1 (coordAt cells i).2).candidate_idx = none) ∧
  (∀ i, i < cells.length → idxVal b (coordAt cells i)
    ≤ (getCell b (coordAt cells i).1 (coordAt cells i).2).candidates.length) ∧
  (∀ i, i < cells.length → i < j →
    ∃ v, (getCell b (coordAt cells i).1 (coordAt cells i).2).candidate = some v ∧
      v ∈ (getCell b (coordAt cells i).1 (coordAt cells i).2).candidates)

/-- Under the invariant every digit of the measure string is at most 11, so
the measure value stays below `12 ^ cells.length`. -/
theorem xiM_lt (cells : List (Nat × Nat)) (b₀ b : Board) (j : Nat)
    (hok : CellsOk cells b₀) (hinv : LoopInv cells b₀ b j) :
    xiM cells b j < 12 ^ cells.length := by
  obtain ⟨_, _, hlen9, _⟩ := hok
  obtain ⟨_, _, _, hcand, _, _, hidx, _⟩ := hinv
  unfold xiM
  have hbound := hornerAux_lt ((List.range cells.length).map
    (fun i => if i ≤ j then idxVal b (coordAt cells i) else 11)) ?_ 0
  · calc hornerAux 0 ((List.range cells.length).map
        (fun i => if i ≤ j then idxVal b (coordAt cells i) else 11))
        < (0 + 1) * 12 ^ (((List.range cells.length).map
            (fun i => if i ≤ j then idxVal b (coordAt cells i) else 11)).length) := hbound
      _ = 12 ^ cells.length := by simp
  · intro d hd
    rw [List.mem_map] at hd
    obtain ⟨i, hi, rfl⟩ := hd
    rw [List.mem_range] at hi
    by_cases hij : i ≤ j
    · rw [if_pos hij]
      have h1 := hidx i hi
      have h2 : (getCell b (coordAt cells i).1 (coordAt cells i).2).candidates.length
          = (getCell b₀ (coordAt cells i).1 (coordAt cells i).2).candidates.length := by
        rw [hcand (coordAt cells i).1 (coordAt cells i).2]
      have h3 := (hlen9 (coordAt cells i).1 (coordAt cells i).2).2.2
      omega
    · rw [if_neg hij]

/-- Full characterisation of the inner candidate-trying loop: it touches only
the cell `row:col`, and on success it has stored some cursor `w` past the
starting one, with the candidate at index `w - 1` tentatively chosen. -/
theorem innerLoop_spec (cands : List Int) (row col : Nat) (hrow : row < 9)
    (hcol : col < 9) :
    ∀ (steps : Nat) (b : Board) (ci : Nat), Dims9 b → cands.length < ci + steps →
      (∀ r c, (r, c) ≠ (row, col) →
        getCell (innerLoop cands row col b ci steps).1 r c = getCell b r c) ∧
      Dims9 (innerLoop cands row col b ci steps).1 ∧
      ((innerLoop cands row col b ci steps).2 = true →
        ∃ w, ci < w ∧ w ≤ cands.length ∧
          getCell (innerLoop cands row col b ci steps).1 row col
            = { getCell b row col with candidate := some (cands.getD (w - 1) 0), candidate_idx := some w }) ∧
      ((innerLoop cands row col b ci steps).2 = false →
        getCell (innerLoop cands row col b ci steps).1 row col = getCell b row col ∨
        ∃ w, ci < w ∧ w ≤ cands.length ∧
          getCell (innerLoop cands row col b ci steps).1 row col
            = { getCell b row col with candidate := some (cands.getD (w - 1) 0), candidate_idx := some w }) := by
  intro steps
  induction steps with
  | zero =>
    intro b ci hd hlt
    refine ⟨fun r c _ => rfl, hd, ?_, ?_⟩
    · intro hfalse
      exact absurd hfalse (by rw [innerLoop]; simp)
    · intro _
      exact Or.inl rfl
  | succ n ih =>
    intro b ci hd hlt
    rw [innerLoop]
    by_cases hci : ci < cands.length
    · rw [if_pos hci]
      dsimp only
      by_cases hcc : can_choose_candidate
          (modifyCell b row col (fun cell =>
            { cell with candidate := some (cands.getD ci 0), candidate_idx := some (ci + 1) }))
          row col (cands.getD ci 0) = true
      · rw [if_pos hcc]
        refine ⟨?_, ?_, ?_, ?_⟩
        · intro r c hne
          exact getCell_modifyCell_ne b (Ne.symm hne) _
        · exact modifyCell_dims hd row col _
        · intro _
          refine ⟨ci + 1, by omega, by omega, ?_⟩
          rw [getCell_modifyCell_self9 hd hrow hcol]
          simp
        · intro hfalse
          simp at hfalse
      · rw [if_neg hcc]
        have hd1 : Dims9 (modifyCell b row col (fun cell =>
            { cell with candidate := some (cands.getD ci 0), candidate_idx := some (ci + 1) })) :=
          modifyCell_dims hd row col _
        obtain ⟨iha, ihd, ihadv, ihexh⟩ := ih _ (ci + 1) hd1 (by omega)
        refine ⟨?_, ihd, ?_, ?_⟩
        · intro r c hne
          rw [iha r c hne]
          exact getCell_modifyCell_ne b (Ne.symm hne) _
        · intro htrue
          obtain ⟨w, hw1, hw2, hw3⟩ := ihadv htrue
          refine ⟨w, by omega, hw2, ?_⟩
          rw [hw3, getCell_modifyCell_self9 hd hrow hcol]
        · intro hfalse
          rcases ihexh hfalse with hsame | ⟨w, hw1, hw2, hw3⟩
          · refine Or.inr ⟨ci + 1, by omega, by omega, ?_⟩
            rw [hsame, getCell_modifyCell_self9 hd hrow hcol]
            simp
          · refine Or.inr ⟨w, by omega, hw2, ?_⟩
            rw [hw3, getCell_modifyCell_self9 hd hrow hcol]
    · rw [if_neg hci]
      refine ⟨fun r c _ => rfl, hd, ?_, fun _ => Or.inl rfl⟩
      intro hfalse
      exact absurd hfalse (by simp)

theorem coordAt_inj {cells : List (Nat × Nat)} (hnd : cells.Nodup) {i i' : Nat}
    (hi : i < cells.length) (hi' : i' < cells.length) (hne : i ≠ i') :
    coordAt cells i ≠ coordAt cells i' := by
  show cells.getD i (0, 0) ≠ cells.getD i' (0, 0)
  rw [getD_eq_get' cells (0, 0) hi, getD_eq_get' cells (0, 0) hi']
  intro he
  have h2 := (List.Nodup.get_inj_iff hnd).mp he
  exact hne (congrArg Fin.val h2)

theorem mem_coordAt {cells : List (Nat × Nat)} {p : Nat × Nat} (hp : p ∈ cells) :
    ∃ i, ∃ h : i < cells.length, coordAt cells i = p := by
  rw [List.mem_iff_get] at hp
  obtain ⟨⟨i, hi⟩, hget⟩ := hp
  refine ⟨i, hi, ?_⟩
  show cells.getD i (0, 0) = p
  rw [getD_eq_get' cells (0, 0) hi]
  exact hget

theorem idxVal_le9 (cells : List (Nat × Nat)) (b₀ b : Board) (j : Nat)
    (hok : CellsOk cells b₀) (hinv : LoopInv cells b₀ b j)
    {i : Nat} (hi : i < cells.length) : idxVal b (coordAt cells i) ≤ 9 := by
  obtain ⟨_, _, hclean, _⟩ := hok
  obtain ⟨_, _, _, hcand, _, _, hidx, _⟩ := hinv
  have h1 := hidx i hi
  have h2 : (getCell b (coordAt cells i).1 (coordAt cells i).2).candidates.length
      = (getCell b₀ (coordAt cells i).1 (coordAt cells i).2).candidates.length := by
    rw [hcand]
  have h3 := (hclean (coordAt cells i).1 (coordAt cells i).2).2.2
  omega

/-- One advancing iteration: the inner loop found a compatible candidate for
cell `j`; the invariant moves to `j + 1` and the measure strictly grows. -/
theorem guess_step_advance (cells : List (Nat × Nat)) (b₀ b b1 : Board) (j : Nat)
    (hok : CellsOk cells b₀) (hinv : LoopInv cells b₀ b j) (hjk : j < cells.length)
    (hres : innerLoop (getCell b (coordAt cells j).1 (coordAt cells j).2).candidates
        (coordAt cells j).1 (coordAt cells j).2 b (idxVal b (coordAt cells j))
        ((getCell b (coordAt cells j).1 (coordAt cells j).2).candidates.length + 1)
      = (b1, true)) :
    LoopInv cells b₀ b1 (j + 1) ∧ xiM cells b j < xiM cells b1 (j + 1) := by
  have hgb : ∀ i, i < cells.length →
      (if i ≤ j then idxVal b (coordAt cells i) else 11) ≤ 11 := by
    intro i hi
    by_cases hij : i ≤ j
    · rw [if_pos hij]
      have := idxVal_le9 cells b₀ b j hok hinv hi
      omega
    · rw [if_neg hij]
  obtain ⟨hnd, hmem, hclean, hd0⟩ := hok
  obtain ⟨hdims, hjle, hsol, hcand, hout, hdeep, hidx, hadv⟩ := hinv
  have hcmem : coordAt cells j ∈ cells := getD_mem' hjk (0, 0)
  obtain ⟨hrow9, hcol9, _⟩ := hmem _ hcmem
  have hspec := innerLoop_spec (getCell b (coordAt cells j).1 (coordAt cells j).2).candidates
      (coordAt cells j).1 (coordAt cells j).2 hrow9 hcol9
      ((getCell b (coordAt cells j).1 (coordAt cells j).2).candidates.length + 1)
      b (idxVal b (coordAt cells j)) hdims (by omega)
  rw [hres] at hspec
  obtain ⟨hsa, hsd, hsadv, _⟩ := hspec
  obtain ⟨w, hw1, hw2, hcell⟩ := hsadv rfl
  have hsolRC : (getCell b1 (coordAt cells j).1 (coordAt cells j).2).solution
      = (getCell b (coordAt cells j).1 (coordAt cells j).2).solution := by rw [hcell]
  have hcandRC : (getCell b1 (coordAt cells j).1 (coordAt cells j).2).candidates
      = (getCell b (coordAt cells j).1 (coordAt cells j).2).candidates := by rw [hcell]
  have hcandfRC : (getCell b1 (coordAt cells j).1 (coordAt cells j).2).candidate
      = some ((getCell b (coordAt cells j).1 (coordAt cells j).2).candidates.getD (w - 1) 0) := by
    rw [hcell]
  have hidxRC : (getCell b1 (coordAt cells j).1 (coordAt cells j).2).candidate_idx
      = some w := by rw [hcell]
  have hotherAll : ∀ i, i < cells.length → i ≠ j →
      getCell b1 (coordAt cells i).1 (coordAt cells i).2
        = getCell b (coordAt cells i).1 (coordAt cells i).2 := by
    intro i hik hij
    apply hsa
    intro hcontr
    apply coordAt_inj hnd hik hjk hij
    calc coordAt cells i = ((coordAt cells i).1, (coordAt cells i).2) := Prod.mk.eta.symm
      _ = ((coordAt cells j).1, (coordAt cells j).2) := hcontr
      _ = coordAt cells j := Prod.mk.eta
  constructor
  · refine ⟨hsd, by omega, ?_, ?_, ?_, ?_, ?_, ?_⟩
    · intro r c
      by_cases hrc : (r, c) = ((coordAt cells j).1, (coordAt cells j).2)
      · have h1 : r = (coordAt cells j).1 := congrArg Prod.fst hrc
        have h2 : c = (coordAt cells j).2 := congrArg Prod.snd hrc
        subst h1
        subst h2
        rw [hsolRC]
        exact hsol _ _
      · rw [hsa r c hrc]
        exact hsol r c
    · intro r c
      by_cases hrc : (r, c) = ((coordAt cells j).1, (coordAt cells j).2)
      · have h1 : r = (coordAt cells j).1 := congrArg Prod.fst hrc
        have h2 : c = (coordAt cells j).2 := congrArg Prod.snd hrc
        subst h1
        subst h2
        rw [hcandRC]
        exact hcand _ _
      · rw [hsa r c hrc]
        exact hcand r c
    · intro r c hrc
      have hne : (r, c) ≠ ((coordAt cells j).1, (coordAt cells j).2) := by
        intro hcontr
        have heq : (r, c) = coordAt cells j := hcontr.trans Prod.mk.eta
        exact hrc (heq ▸ hcmem)
      rw [hsa r c hne]
      exact hout r c hrc
    · intro i hik hji
      rw [hotherAll i hik (by omega)]
      exact hdeep i hik (by omega)
    · intro i hik
      by_cases hij : i = j
      · subst hij
        show ((getCell b1 (coordAt cells i).1 (coordAt cells i).2).candidate_idx).getD 0
          ≤ (getCell b1 (coordAt cells i).1 (coordAt cells i).2).candidates.length
        rw [hidxRC, hcandRC]
        simpa using hw2
      · show ((getCell b1 (coordAt cells i).1 (coordAt cells i).2).candidate_idx).getD 0
          ≤ (getCell b1 (coordAt cells i).1 (coordAt cells i).2).candidates.length
        rw [hotherAll i hik hij]
        exact hidx i hik
    · intro i hik hij1
      by_cases hij : i = j
      · subst hij
        refine ⟨(getCell b (coordAt cells i).1 (coordAt cells i).2).candidates.getD (w - 1) 0,
          hcandfRC, ?_⟩
        rw [hcandRC]
        exact getD_mem' (by omega) 0
      · rw [hotherAll i hik hij]
        exact hadv i hik (by omega)
  · unfold xiM
    refine horner_lt_horner _ _ cells.length j hjk ?_ ?_ hgb
    · intro i hi
      rw [if_pos (by omega : i ≤ j), if_pos (by omega : i ≤ j + 1)]
      show ((getCell b (coordAt cells i).1 (coordAt cells i).2).candidate_idx).getD 0
        = ((getCell b1 (coordAt cells i).1 (coordAt cells i).2).candidate_idx).getD 0
      rw [hotherAll i (by omega) (by omega)]
    · rw [if_pos (by omega : j ≤ j), if_pos (by omega : j ≤ j + 1)]
      show idxVal b (coordAt cells j)
        < ((getCell b1 (coordAt cells j).1 (coordAt cells j).2).candidate_idx).getD 0
      rw [hidxRC]
      exact hw1

/-- State after a failed run: every cell's tentative candidate and cursor have
been cleared. -/
def ClearedState (bF : Board) : Prop :=
  ∀ r c, (getCell bF r c).candidate = none ∧ (getCell bF r c).candidate_idx = none

/-- State after a successful run: solutions and candidate sets are those the
loop started with, and every cell of the visiting order carries a tentative
candidate drawn from its candidate set. -/
def SuccessState (cells : List (Nat × Nat)) (b₀ bF : Board) : Prop :=
  Dims9 bF ∧
  (∀ r c, (getCell bF r c).solution = (getCell b₀ r c).solution) ∧
  (∀ r c, (getCell bF r c).candidates = (getCell b₀ r c).candidates) ∧
  ∀ i, i < cells.length →
    ∃ v, (getCell bF (coordAt cells i).1 (coordAt cells i).2).candidate = some v ∧
      v ∈ (getCell bF (coordAt cells i).1 (coordAt cells i).2).candidates

/-- One exhausting iteration: no candidate of cell `j` was compatible, so the
cell is fully reset.  At `j = 0` the whole search state is clear; otherwise the
invariant moves back to `j - 1` and the measure still strictly grows. -/
theorem guess_step_exhaust (cells : List (Nat × Nat)) (b₀ b b1 b2 : Board) (j : Nat)
    (hok : CellsOk cells b₀) (hinv : LoopInv cells b₀ b j) (hjk : j < cells.length)
    (hres : innerLoop (getCell b (coordAt cells j).1 (coordAt cells j).2).candidates
        (coordAt cells j).1 (coordAt cells j).2 b (idxVal b (coordAt cells j))
        ((getCell b (coordAt cells j).1 (coordAt cells j).2).candidates.length + 1)
      = (b1, false))
    (hb2 : b2 = modifyCell b1 (coordAt cells j).1 (coordAt cells j).2
      (fun cell => { cell with candidate := none, candidate_idx := none })) :
    (j = 0 → ClearedState b2) ∧
    (1 ≤ j → LoopInv cells b₀ b2 (j - 1) ∧ xiM cells b j < xiM cells b2 (j - 1)) := by
  have hgb : ∀ i, i < cells.length →
      (if i ≤ j then idxVal b (coordAt cells i) else 11) ≤ 11 := by
    intro i hi
    by_cases hij : i ≤ j
    · rw [if_pos hij]
      have := idxVal_le9 cells b₀ b j hok hinv hi
      omega
    · rw [if_neg hij]
  have hio : idxVal b (coordAt cells j) ≤ 9 := idxVal_le9 cells b₀ b j hok hinv hjk
  obtain ⟨hnd, hmem, hclean, hd0⟩ := hok
  obtain ⟨hdims, hjle, hsol, hcand, hout, hdeep, hidx, hadv⟩ := hinv
  have hcmem : coordAt cells j ∈ cells := getD_mem' hjk (0, 0)
  obtain ⟨hrow9, hcol9, _⟩ := hmem _ hcmem
  have hspec := innerLoop_spec (getCell b (coordAt cells j).1 (coordAt cells j).2).candidates
      (coordAt cells j).1 (coordAt cells j).2 hrow9 hcol9
      ((getCell b (coordAt cells j).1 (coordAt cells j).2).candidates.length + 1)
      b (idxVal b (coordAt cells j)) hdims (by omega)
  rw [hres] at hspec
  obtain ⟨hsa, hsd, _, hsexh⟩ := hspec
  have hsolRC1 : (getCell b1 (coordAt cells j).1 (coordAt cells j).2).solution
      = (getCell b (coordAt cells j).1 (coordAt cells j).2).solution := by
    rcases hsexh rfl with hsame | ⟨w, _, _, hw3⟩
    · rw [hsame]
    · rw [hw3]
  have hcandRC1 : (getCell b1 (coordAt cells j).1 (coordAt cells j).2).candidates
      = (getCell b (coordAt cells j).1 (coordAt cells j).2).candidates := by
    rcases hsexh rfl with hsame | ⟨w, _, _, hw3⟩
    · rw [hsame]
    · rw [hw3]
  have hb2RC : getCell b2 (coordAt cells j).1 (coordAt cells j).2
      = { getCell b1 (coordAt cells j).1 (coordAt cells j).2 with
          candidate := none, candidate_idx := none } := by
    rw [hb2]
    exact getCell_modifyCell_self9 hsd hrow9 hcol9 _
  have hother : ∀ r c, (r, c) ≠ ((coordAt cells j).1, (coordAt cells j).2) →
      getCell b2 r c = getCell b r c := by
    intro r c hne
    rw [hb2, getCell_modifyCell_ne b1 (Ne.symm hne), hsa r c hne]
  have hotherAll : ∀ i, i < cells.length → i ≠ j →
      getCell b2 (coordAt cells i).1 (coordAt cells i).2
        = getCell b (coordAt cells i).1 (coordAt cells i).2 := by
    intro i hik hij
    apply hother
    intro hcontr
    apply coordAt_inj hnd hik hjk hij
    calc coordAt cells i = ((coordAt cells i).1, (coordAt cells i).2) := Prod.mk.eta.symm
      _ = ((coordAt cells j).1, (coordAt cells j).2) := hcontr
      _ = coordAt cells j := Prod.mk.eta
  constructor
  · -- j = 0: the whole search state is cleared
    intro hj0
    intro r c
    by_cases hrc : (r, c) = ((coordAt cells j).1, (coordAt cells j).2)
    · have h1 : r = (coordAt cells j).1 := congrArg Prod.fst hrc
      have h2 : c = (coordAt cells j).2 := congrArg Prod.snd hrc
      subst h1
      subst h2
      rw [hb2RC]
      exact ⟨rfl, rfl⟩
    · rw [hother r c hrc]
      by_cases hmem2 : (r, c) ∈ cells
      · obtain ⟨i, hik, hci⟩ := mem_coordAt hmem2
        have hij : i ≠ j := by
          intro hcontr
          apply hrc
          rw [← hci, hcontr]
        have hipos : j < i := by omega
        have hdi := hdeep i hik hipos
        rw [hci] at hdi
        exact hdi
      · exact hout r c hmem2
  · -- j ≥ 1: backtrack to j - 1
    intro hj1
    constructor
    · refine ⟨hb2 ▸ modifyCell_dims hsd _ _ _, by omega, ?_, ?_, ?_, ?_, ?_, ?_⟩
      · intro r c
        by_cases hrc : (r, c) = ((coordAt cells j).1, (coordAt cells j).2)
        · have h1 : r = (coordAt cells j).1 := congrArg Prod.fst hrc
          have h2 : c = (coordAt cells j).2 := congrArg Prod.snd hrc
          subst h1
          subst h2
          rw [hb2RC]
          show (getCell b1 (coordAt cells j).1 (coordAt cells j).2).solution = _
          rw [hsolRC1]
          exact hsol _ _
        · rw [hother r c hrc]
          exact hsol r c
      · intro r c
        by_cases hrc : (r, c) = ((coordAt cells j).1, (coordAt cells j).2)
        · have h1 : r = (coordAt cells j).1 := congrArg Prod.fst hrc
          have h2 : c = (coordAt cells j).2 := congrArg Prod.snd hrc
          subst h1
          subst h2
          rw [hb2RC]
          show (getCell b1 (coordAt cells j).1 (coordAt cells j).2).candidates = _
          rw [hcandRC1]
          exact hcand _ _
        · rw [hother r c hrc]
          exact hcand r c
      · intro r c hrc
        have hne : (r, c) ≠ ((coordAt cells j).1, (coordAt cells j).2) := by
          intro hcontr
          have heq : (r, c) = coordAt cells j := hcontr.trans Prod.mk.eta
          exact hrc (heq ▸ hcmem)
        rw [hother r c hne]
        exact hout r c hrc
      · intro i hik hji
        by_cases hij : i = j
        · subst hij
          rw [hb2RC]
          exact ⟨rfl, rfl⟩
        · rw [hotherAll i hik hij]
          exact hdeep i hik (by omega)
      · intro i hik
        by_cases hij : i = j
        · subst hij
          show ((getCell b2 (coordAt cells i).1 (coordAt cells i).2).candidate_idx).getD 0
            ≤ (getCell b2 (coordAt cells i).1 (coordAt cells i).2).candidates.length
          rw [hb2RC]
          simp
        · show ((getCell b2 (coordAt cells i).1 (coordAt cells i).2).candidate_idx).getD 0
            ≤ (getCell b2 (coordAt cells i).1 (coordAt cells i).2).candidates.length
          rw [hotherAll i hik hij]
          exact hidx i hik
      · intro i hik hij1
        rw [hotherAll i hik (by omega)]
        exact hadv i hik (by omega)
    · unfold xiM
      refine horner_lt_horner _ _ cells.length j hjk ?_ ?_ hgb
      · intro i hi
        rw [if_pos (by omega : i ≤ j), if_pos (by omega : i ≤ j - 1)]
        show ((getCell b (coordAt cells i).1 (coordAt cells i).2).candidate_idx).getD 0
          = ((getCell b2 (coordAt cells i).1 (coordAt cells i).2).candidate_idx).getD 0
        rw [hotherAll i (by omega) (by omega)]
      · rw [if_pos (by omega : j ≤ j), if_neg (by omega : ¬ j ≤ j - 1)]
        omega

/-- The outer loop of `guess_solutions`, run from any invariant state with
fuel at least the measure headroom, reaches a definitive answer: `true` with a
fully tentatively-assigned board, or `false` with all search state cleared. -/
theorem guessLoop_run (cells : List (Nat × Nat)) (b₀ : Board) (hok : CellsOk cells b₀) :
    ∀ (fuel : Nat) (b : Board) (j : Nat), LoopInv cells b₀ b j →
      12 ^ cells.length - xiM cells b j ≤ fuel →
      ∃ flag bF, guessLoop cells fuel b j = some (flag, bF) ∧
        (flag = true → SuccessState cells b₀ bF) ∧
        (flag = false → ClearedState bF) := by
  intro fuel
  induction fuel with
  | zero =>
    intro b j hinv hfuel
    have hxi := xiM_lt cells b₀ b j hok hinv
    exact absurd hfuel (by omega)
  | succ n ih =>
    intro b j hinv hfuel
    rw [guessLoop]
    by_cases hjk : j < cells.length
    · rw [if_pos hjk]
      dsimp only
      rcases hres : innerLoop
          (getCell b (cells.getD j (0, 0)).1 (cells.getD j (0, 0)).2).candidates
          (cells.getD j (0, 0)).1 (cells.getD j (0, 0)).2 b
          (((getCell b (cells.getD j (0, 0)).1 (cells.getD j (0, 0)).2).candidate_idx).getD 0)
          ((getCell b (cells.getD j (0, 0)).1 (cells.getD j (0, 0)).2).candidates.length + 1)
        with ⟨b1, flag⟩
      dsimp only
      cases flag
      · rw [if_neg (by simp)]
        obtain ⟨hcl0, hback⟩ := guess_step_exhaust cells b₀ b b1
          (modifyCell b1 (cells.getD j (0, 0)).1 (cells.getD j (0, 0)).2
            (fun cell => { cell with candidate := none, candidate_idx := none }))
          j hok hinv hjk hres rfl
        by_cases hj0 : (j == 0) = true
        · rw [if_pos hj0]
          have hj00 : j = 0 := by simpa using hj0
          refine ⟨false, _, rfl, ?_, ?_⟩
          · intro h
            exact absurd h (by simp)
          · intro _
            exact hcl0 hj00
        · rw [if_neg hj0]
          have hj1 : 1 ≤ j := by
            simp at hj0
            omega
          obtain ⟨hinv2, hxi2⟩ := hback hj1
          have hxi := xiM_lt cells b₀ b j hok hinv
          exact ih _ (j - 1) hinv2 (by omega)
      · rw [if_pos rfl]
        obtain ⟨hinv2, hxi2⟩ := guess_step_advance cells b₀ b b1 j hok hinv hjk hres
        have hxi := xiM_lt cells b₀ b j hok hinv
        exact ih b1 (j + 1) hinv2 (by omega)
    · rw [if_neg hjk]
      obtain ⟨hdims, hjle, hsol, hcand, hout, hdeep, hidx, hadv⟩ := hinv
      refine ⟨true, b, rfl, ?_, ?_⟩
      · intro _
        exact ⟨hdims, hsol, hcand, fun i hik => hadv i hik (by omega)⟩
      · intro h
        exact absurd h (by simp)

/-! ## Well-formedness through propagation -/

/-- Cell-level well-formedness after propagation: solved digits and candidates
lie in 1–9, at most nine candidates, and the search fields are untouched. -/
def MidCell (cell : Cell) : Prop :=
  (∀ d, cell.solution = some d → 1 ≤ d ∧ d ≤ 9) ∧
  (∀ x ∈ cell.candidates, 1 ≤ x ∧ x ≤ 9) ∧
  cell.candidates.length ≤ 9 ∧ cell.candidate = none ∧ cell.candidate_idx = none

def MidInv (s : Sudoku) : Prop :=
  Dims9 s.board ∧ ∀ r c, MidCell (getCell s.board r c)

theorem find_cell_candidates_mem {s : Sudoku} {row col : Nat} {x : Int}
    (hx : x ∈ find_cell_candidates s row col) : 1 ≤ x ∧ x ≤ 9 := by
  unfold find_cell_candidates at hx
  rw [List.mem_filter] at hx
  obtain ⟨hx1, _⟩ := hx
  rw [List.mem_map] at hx1
  obtain ⟨i, hi, rfl⟩ := hx1
  rw [List.mem_range] at hi
  have hcast : Int.ofNat i = (i : Int) := rfl
  rw [hcast]
  constructor
  · omega
  · omega

theorem find_cell_candidates_len (s : Sudoku) (row col : Nat) :
    (find_cell_candidates s row col).length ≤ 9 := by
  unfold find_cell_candidates
  calc (((List.range 9).map (fun i => Int.ofNat i + 1)).filter _).length
      ≤ ((List.range 9).map (fun i => Int.ofNat i + 1)).length :=
        List.length_filter_le _ _
    _ = 9 := by rw [List.length_map, List.length_range]

theorem midCell_clearCand {cell : Cell} (h : MidCell cell) (d : Int) :
    MidCell (clearCand d cell) := by
  obtain ⟨h1, h2, h3, h4, h5⟩ := h
  refine ⟨h1, ?_, ?_, h4, h5⟩
  · intro x hx
    exact h2 x (List.mem_of_mem_filter hx)
  · exact le_trans (List.length_filter_le _ _) h3

theorem midcells_modify {b : Board} (hb : ∀ r c, MidCell (getCell b r c))
    (f : Cell → Cell) (hf : ∀ cell, MidCell cell → MidCell (f cell)) (rr cc : Nat) :
    ∀ r c, MidCell (getCell (modifyCell b rr cc f) r c) := by
  intro r c
  by_cases hee : (rr, cc) = (r, c)
  · have e1 : rr = r := congrArg Prod.fst hee
    have e2 : cc = c := congrArg Prod.snd hee
    subst e1
    subst e2
    rcases getCell_modifyCell_self_or b rr cc f with h' | h'
    · rw [h']
      exact hf _ (hb rr cc)
    · rw [h']
      exact hb rr cc
  · rw [getCell_modifyCell_ne b hee]
    exact hb r c

/-- Generic preservation principle for `found_solution`'s board effect. -/
theorem found_solution_pres (s : Sudoku) (row col : Nat) (sol : Int) (Q : Board → Prop)
    (h0 : Q (modifyCell s.board row col
      (fun cell => { cell with solution := some sol, candidates := [] })))
    (hclear : ∀ b r2 c2, Q b → Q (modifyCell b r2 c2 (clearCand sol))) :
    Q (found_solution s row col sol).board := by
  unfold found_solution
  dsimp only
  refine foldl_range_pres _ Q 3 _ ?_ ?_
  · refine foldl_range_pres _ Q 9 _ ?_ ?_
    · exact foldl_range_pres _ Q 9 _ h0 (fun i acc _ hacc => hclear acc i col hacc)
    · intro i acc _ hacc
      exact hclear acc row i hacc
  · intro i acc _ hacc
    exact foldl_range_pres _ Q 3 _ hacc (fun j2 acc2 _ hacc2 => hclear acc2 _ _ hacc2)

theorem find_candidates_midInv (s : Sudoku) (h : MidInv s) :
    MidInv (find_candidates (fun l => l) s) := by
  refine find_candidates_pres (fun l => l) MidInv ?_ ?_ s h
  · intro s2 row col _ _ hmid _ hlen1
    obtain ⟨hdims, hcells⟩ := hmid
    have hne : find_cell_candidates s2 row col ≠ [] := by
      intro hnil
      rw [hnil] at hlen1
      simp at hlen1
    have hheadmem : (find_cell_candidates s2 row col).headD 0
        ∈ find_cell_candidates s2 row col := by
      cases hfc : find_cell_candidates s2 row col with
      | nil => exact absurd hfc hne
      | cons a t => simp
    have hsolb := find_cell_candidates_mem hheadmem
    constructor
    · exact found_solution_pres s2 row col _ (fun bd => Dims9 bd)
        (modifyCell_dims hdims _ _ _)
        (fun bb r2 c2 hq => modifyCell_dims hq _ _ _)
    · refine found_solution_pres s2 row col _
        (fun bd => ∀ r c, MidCell (getCell bd r c)) ?_ ?_
      · refine midcells_modify hcells _ ?_ _ _
        intro cell hc
        obtain ⟨_, _, _, h4, h5⟩ := hc
        refine ⟨?_, ?_, ?_, h4, h5⟩
        · intro d hd
          injection hd with hd
          exact hd ▸ hsolb
        · intro x hx
          simp at hx
        · simp
      · intro bb r2 c2 hq
        exact midcells_modify hq _ (fun cell hc => midCell_clearCand hc _) r2 c2
  · intro s2 row col _ _ hmid _ _ _
    obtain ⟨hdims, hcells⟩ := hmid
    constructor
    · exact modifyCell_dims hdims _ _ _
    · refine midcells_modify hcells _ ?_ _ _
      intro cell hc
      obtain ⟨h1, _, _, h4, h5⟩ := hc
      exact ⟨h1, fun x hx => find_cell_candidates_mem hx,
        find_cell_candidates_len s2 row col, h4, h5⟩

theorem midCell_unsolved : MidCell Cell.unsolved := by
  refine ⟨?_, ?_, ?_, rfl, rfl⟩
  · intro d hd
    exact Option.noConfusion hd
  · intro x hx
    simp [Cell.unsolved] at hx
  · simp [Cell.unsolved]

theorem midInv_new {b : Board} (hwf : WfBoard b) : MidInv (Sudoku.new b) := by
  obtain ⟨hdims, hcells⟩ := hwf
  refine ⟨hdims, ?_⟩
  intro r c
  show MidCell (getCell b r c)
  by_cases hr : r < 9
  · by_cases hc : c < 9
    · rcases hcells r hr c hc with hg | ⟨h1, h2, h3⟩
      · rw [hg]
        exact midCell_unsolved
      · obtain ⟨d, hcd, hd1, hd2⟩ : ∃ d, getCell b r c = Cell.solved d ∧ 1 ≤ d ∧ d ≤ 9 :=
          ⟨(getCell b r c).solution.getD 0, h3, h1, h2⟩
        rw [hcd]
        refine ⟨?_, ?_, ?_, rfl, rfl⟩
        · intro d2 hd
          injection hd with hd
          subst hd
          exact ⟨hd1, hd2⟩
        · intro x hx
          simp [Cell.solved] at hx
        · simp [Cell.solved]
    · rw [getCell_oob ⟨hdims.1, hdims.2⟩ (Or.inr (by omega))]
      exact midCell_unsolved
  · rw [getCell_oob ⟨hdims.1, hdims.2⟩ (Or.inl (by omega))]
    exact midCell_unsolved

theorem mem_unsolved_cells {s : Sudoku} {p : Nat × Nat} :
    p ∈ unsolved_cells s ↔
      p.1 < 9 ∧ p.2 < 9 ∧ (getCell s.board p.1 p.2).solution = none := by
  unfold unsolved_cells
  rw [List.mem_filter, mem_allCells]
  constructor
  · rintro ⟨⟨h1, h2⟩, h3⟩
    refine ⟨h1, h2, ?_⟩
    simpa [Option.isNone_iff_eq_none] using h3
  · rintro ⟨h1, h2, h3⟩
    exact ⟨⟨h1, h2⟩, by simp [h3]⟩

theorem allCells_nodup : allCells.Nodup := by decide

theorem unsolved_cells_nodup (s : Sudoku) : (unsolved_cells s).Nodup :=
  List.Nodup.filter _ allCells_nodup

theorem unsolved_cells_len (s : Sudoku) : (unsolved_cells s).length ≤ 81 := by
  unfold unsolved_cells
  have h := List.length_filter_le
    (fun p => (getCell s.board p.1 p.2).solution.isNone) allCells
  have h81 : allCells.length = 81 := by decide
  omega

theorem cellsOk_of_midInv {s : Sudoku} (h : MidInv s) :
    CellsOk (unsolved_cells s) s.board := by
  obtain ⟨hdims, hcells⟩ := h
  refine ⟨unsolved_cells_nodup s, ?_, ?_, hdims⟩
  · intro p hp
    exact mem_unsolved_cells.mp hp
  · intro r c
    obtain ⟨_, _, h3, h4, h5⟩ := hcells r c
    exact ⟨h4, h5, h3⟩

theorem loopInv_init {s : Sudoku} (h : MidInv s) :
    LoopInv (unsolved_cells s) s.board s.board 0 := by
  obtain ⟨hdims, hcells⟩ := h
  refine ⟨hdims, Nat.zero_le _, fun r c => rfl, fun r c => rfl, ?_, ?_, ?_, ?_⟩
  · intro r c _
    obtain ⟨_, _, _, h4, h5⟩ := hcells r c
    exact ⟨h4, h5⟩
  · intro i hik _
    obtain ⟨_, _, _, h4, h5⟩ := hcells (coordAt (unsolved_cells s) i).1
      (coordAt (unsolved_cells s) i).2
    exact ⟨h4, h5⟩
  · intro i hik
    obtain ⟨_, _, _, _, h5⟩ := hcells (coordAt (unsolved_cells s) i).1
      (coordAt (unsolved_cells s) i).2
    show ((getCell s.board (coordAt (unsolved_cells s) i).1
      (coordAt (unsolved_cells s) i).2).candidate_idx).getD 0 ≤ _
    rw [h5]
    simp
  · intro i _ hi0
    exact absurd hi0 (by omega)

theorem fuel_ok (s : Sudoku) (bb : Board) (j : Nat) :
    12 ^ (unsolved_cells s).length - xiM (unsolved_cells s) bb j ≤ SOLVE_FUEL := by
  have hk := unsolved_cells_len s
  have h1 : (12 : Nat) ^ (unsolved_cells s).length ≤ 12 ^ 82 :=
    Nat.pow_le_pow_right (by omega) (by omega)
  unfold SOLVE_FUEL
  omega

/-- Pointwise characterisation of `use_final_candidates`: each in-range cell is
finalised exactly once. -/
theorem getCell_use_final (b : Board) (hd : Dims9 b) :
    ∀ r c, r < 9 → c < 9 →
      getCell (use_final_candidates b) r c = finalizeCell (getCell b r c) := by
  unfold use_final_candidates
  have main := foldl_range_inv
    (fun bb row => (List.range 9).foldl
      (fun bb col => modifyCell bb row col finalizeCell) bb)
    (fun n bb => Dims9 bb ∧ ∀ rr cc, cc < 9 →
      (rr < n → getCell bb rr cc = finalizeCell (getCell b rr cc)) ∧
      (n ≤ rr → getCell bb rr cc = getCell b rr cc)) 9 b ?init ?step
  · intro r c hr hc
    exact (main.2 r c hc).1 hr
  · refine ⟨hd, ?_⟩
    intro rr cc _
    exact ⟨fun h => absurd h (by omega), fun _ => rfl⟩
  · intro i acc hi hacc
    obtain ⟨haccd, hacc2⟩ := hacc
    have inner := foldl_range_inv
      (fun bb col => modifyCell bb i col finalizeCell)
      (fun m bb => Dims9 bb ∧ ∀ rr cc, cc < 9 →
        (rr < i → getCell bb rr cc = finalizeCell (getCell b rr cc)) ∧
        (rr = i → cc < m → getCell bb rr cc = finalizeCell (getCell b rr cc)) ∧
        (rr = i → m ≤ cc → getCell bb rr cc = getCell b rr cc) ∧
        (i < rr → getCell bb rr cc = getCell b rr cc)) 9 acc ?innerinit ?innerstep
    · obtain ⟨hid, hi2⟩ := inner
      refine ⟨hid, ?_⟩
      intro rr cc hcc
      obtain ⟨g1, g2, _, g4⟩ := hi2 rr cc hcc
      constructor
      · intro hrlt
        rcases Nat.lt_or_ge rr i with h | h
        · exact g1 h
        · have hri : rr = i := by omega
          exact g2 hri hcc
      · intro hge
        exact g4 (by omega)
    · refine ⟨haccd, ?_⟩
      intro rr cc hcc
      obtain ⟨f1, f2⟩ := hacc2 rr cc hcc
      refine ⟨f1, ?_, ?_, ?_⟩
      · intro _ hcontr
        exact absurd hcontr (by omega)
      · intro hri _
        exact f2 (by omega)
      · intro hlt
        exact f2 (by omega)
    · intro m acc2 hm hacc3
      obtain ⟨hacc2d, hacc4⟩ := hacc3
      refine ⟨modifyCell_dims hacc2d _ _ _, ?_⟩
      intro rr cc hcc
      by_cases hee : (i, m) = (rr, cc)
      · have e1 : i = rr := congrArg Prod.fst hee
        have e2 : m = cc := congrArg Prod.snd hee
        subst e1
        subst e2
        obtain ⟨_, _, q3, _⟩ := hacc4 i m hcc
        have horig : getCell acc2 i m = getCell b i m := q3 rfl (by omega)
        rw [getCell_modifyCell_self9 hacc2d hi hm, horig]
        refine ⟨fun h => absurd h (by omega), fun _ _ => rfl, ?_, ?_⟩
        · intro _ hcontr
          exact absurd hcontr (by omega)
        · intro hcontr
          exact absurd hcontr (by omega)
      · rw [getCell_modifyCell_ne acc2 hee]
        obtain ⟨q1, q2, q3, q4⟩ := hacc4 rr cc hcc
        refine ⟨q1, ?_, ?_, q4⟩
        · intro hri hccm
          rcases Nat.lt_or_ge cc m with h | h
          · exact q2 hri h
          · have hcm : cc = m := by omega
            exact absurd (by rw [hri, hcm] : (i, m) = (rr, cc)).symm
              (fun hcontr => hee hcontr.symm)
        · intro hri hmc
          exact q3 hri (by omega)

theorem use_final_sets_candidate (b : Board) (hd : Dims9 b) (r c : Nat)
    (hr : r < 9) (hc : c < 9) (v : Int)
    (hnone : (getCell b r c).solution = none)
    (hcand : (getCell b r c).candidate = some v) :
    (getCell (use_final_candidates b) r c).solution = some v := by
  rw [getCell_use_final b hd r c hr hc, finalizeCell,
    if_pos (by rw [hnone]; rfl), hcand]

/-- C5: `solve` terminates.  The backtracking loop, started on any well-formed
input after propagation, returns a definitive `Some`/`None` answer within any
fuel of at least `12 ^ k` outer iterations for `k` unsolved cells (each
iteration strictly increases a base-12 measure below `12 ^ k`), and in
particular the `solveWith` run with the fixed fuel `12 ^ 82 ≥ 12 ^ 81 ≥ 12 ^ k`
never exhausts its fuel. -/
theorem C5_solve_terminates (b : Board) (hwf : WfBoard b) :
    (∀ fuel, 12 ^ (unsolved_cells (find_candidates (fun l => l) (Sudoku.new b))).length ≤ fuel →
      ∃ res, guessLoop (unsolved_cells (find_candidates (fun l => l) (Sudoku.new b))) fuel
        (find_candidates (fun l => l) (Sudoku.new b)).board 0 = some res) ∧
    ∃ out, solveWith (fun l => l) b = some out := by
  have hmid := find_candidates_midInv (Sudoku.new b) (midInv_new hwf)
  have hok := cellsOk_of_midInv hmid
  have hinit := loopInv_init hmid
  constructor
  · intro fuel hfuel
    obtain ⟨flag, bF, heq, _, _⟩ := guessLoop_run _ _ hok fuel _ 0 hinit (by omega)
    exact ⟨(flag, bF), heq⟩
  · obtain ⟨flag, bF, heq, _, _⟩ := guessLoop_run _ _ hok SOLVE_FUEL _ 0 hinit
      (fuel_ok _ _ _)
    unfold solveWith guess_solutions
    rw [heq]
    cases flag
    · exact ⟨(none, bF), rfl⟩
    · exact ⟨(some (use_final_candidates bF), use_final_candidates bF), rfl⟩

/-- C5 witness at `allOnes`. -/
theorem C5_witness : (solveWith (fun l => l) allOnes).isSome = true := by
  obtain ⟨out, hout⟩ := (C5_solve_terminates allOnes (by decide)).2
  rw [hout]
  rfl

/-- C2: every grid a successful `solve` returns is complete — all 81 cells
carry a solution digit in 1–9.  Propagation keeps all digits in range; success
of the loop means every unsolved cell holds a tentative candidate from its
candidate set, which `use_final_candidates` promotes to its solution. -/
theorem C2_solve_completeness (b : Board) (hwf : WfBoard b) (g : Board)
    (hg : solve b = some g) :
    ∀ r, r < 9 → ∀ c, c < 9 →
      ∃ d, (getCell g r c).solution = some d ∧ 1 ≤ d ∧ d ≤ 9 := by
  unfold solve at hg
  obtain ⟨bF, hgl, hge⟩ := solveR_some_elim hg
  have hmid := find_candidates_midInv (Sudoku.new b) (midInv_new hwf)
  have hok := cellsOk_of_midInv hmid
  have hinit := loopInv_init hmid
  obtain ⟨flag, bF2, heq, hsucc, _⟩ := guessLoop_run _ _ hok SOLVE_FUEL _ 0 hinit
    (fuel_ok _ _ _)
  rw [hgl] at heq
  have hpair : (true, bF) = (flag, bF2) := Option.some.inj heq
  have hflag : true = flag := congrArg Prod.fst hpair
  have hbf : bF = bF2 := congrArg Prod.snd hpair
  subst hbf
  obtain ⟨hdimsF, hsolF, hcandF, hassigned⟩ := hsucc hflag.symm
  obtain ⟨hmidd, hmidc⟩ := hmid
  intro r hr c hc
  rw [hge]
  rcases hsolcase : (getCell bF r c).solution with _ | d
  · have hsolb0 : (getCell (find_candidates (fun l => l) (Sudoku.new b)).board r c).solution
        = none := by
      rw [← hsolF r c]
      exact hsolcase
    have hmemu : (r, c) ∈ unsolved_cells (find_candidates (fun l => l) (Sudoku.new b)) :=
      mem_unsolved_cells.mpr ⟨hr, hc, hsolb0⟩
    obtain ⟨i, hik, hci⟩ := mem_coordAt hmemu
    obtain ⟨v, hv1, hv2⟩ := hassigned i hik
    rw [hci] at hv1 hv2
    dsimp only at hv1 hv2
    refine ⟨v, ?_, ?_⟩
    · exact use_final_sets_candidate bF hdimsF r c hr hc v hsolcase hv1
    · have hvc : v ∈ (getCell (find_candidates (fun l => l) (Sudoku.new b)).board r c).candidates := by
        rw [← hcandF r c]
        exact hv2
      exact (hmidc r c).2.1 v hvc
  · have hd' : (getCell (find_candidates (fun l => l) (Sudoku.new b)).board r c).solution
        = some d := by
      rw [← hsolF r c]
      exact hsolcase
    exact ⟨d, use_final_solution_some bF r c d hsolcase, (hmidc r c).1 d hd'⟩

/-- C2 witness at `allOnes`. -/
theorem C2_witness :
    ∃ d : Int, (getCell allOnes 0 0).solution = some d ∧ 1 ≤ d ∧ d ≤ 9 :=
  C2_solve_completeness allOnes (by decide) allOnes (by decide) 0 (by omega) 0 (by omega)

/-- C10: whenever the backtracking phase reports failure, the board it leaves
behind has every cell's tentative `candidate` and `candidate_idx` cleared:
cells the search never reached were never written, and each backtrack step
fully resets the exhausted cell before retreating, including the very first
cell just before `None` is returned. -/
theorem C10_failure_clears (b : Board) (hwf : WfBoard b) (bf : Board)
    (h : solveWith (fun l => l) b = some (none, bf)) :
    ∀ r c, (getCell bf r c).candidate = none ∧ (getCell bf r c).candidate_idx = none := by
  have hmid := find_candidates_midInv (Sudoku.new b) (midInv_new hwf)
  have hok := cellsOk_of_midInv hmid
  have hinit := loopInv_init hmid
  obtain ⟨flag, bF2, heq, _, hfail⟩ := guessLoop_run _ _ hok SOLVE_FUEL _ 0 hinit
    (fuel_ok _ _ _)
  unfold solveWith guess_solutions at h
  rw [heq] at h
  cases flag
  · dsimp only at h
    have hpair := Option.some.inj h
    have hbf : bF2 = bf := congrArg Prod.snd hpair
    exact hbf ▸ hfail rfl
  · dsimp only at h
    have hpair := Option.some.inj h
    have hcontr : some (use_final_candidates bF2) = none := congrArg Prod.fst hpair
    exact Option.noConfusion hcontr

/-- Classifier: the run failed (returned `None`). -/
def isFailRun : Option (Option Board × Board) → Bool
  | some (none, _) => true
  | _ => false

/-- Classifier: the run failed and left a fully cleared search state. -/
def clearedRun : Option (Option Board × Board) → Bool
  | some (none, bf) => allCells.all (fun p =>
      ((getCell bf p.1 p.2).candidate == none) &&
      ((getCell bf p.1 p.2).candidate_idx == none))
  | _ => false

/-- C10 witness at the unsolvable `gUnsat`. -/
theorem C10_witness : clearedRun (solveWith (fun l => l) gUnsat) = true := by
  have hfail : isFailRun (solveWith (fun l => l) gUnsat) = true := by decide
  rcases hres : solveWith (fun l => l) gUnsat with _ | p
  · rw [hres] at hfail
    exact absurd hfail (by simp [isFailRun])
  · obtain ⟨ro, bf⟩ := p
    cases ro with
    | some gg =>
      rw [hres] at hfail
      simp [isFailRun] at hfail
    | none =>
      have hcl := C10_failure_clears gUnsat (by decide) bf hres
      unfold clearedRun
      rw [List.all_eq_true]
      intro p hp
      obtain ⟨h1, h2⟩ := hcl p.1 p.2
      rw [h1, h2]
      rfl
